import Mathlib

/-!
Verification of the query engine in backend/search.py of Smart_Doc_Finder.

The filesystem is modelled as a finite directory tree (`Dir`).  Paths are
POSIX strings; `pjoin` models os.path.join, `pathParts` models
pathlib.Path(...).parts, and `oswalk` models CPython's top-down os.walk
traversal, where a directory whose scan raises PermissionError contributes
nothing (its subtree is not visited).  Python's optional string parameters
are modelled as `Option String` with Python truthiness (`none` and
`some ""` are falsy).  Python's stable ascending list sort with a key is
modelled by insertion sort under the non-strict key order.  `str.lower` is
modelled characterwise by `strLower` and `str.strip` by `strTrim`.
-/

set_option linter.unusedVariables false

namespace SmartDoc

/-- Substring test, modelling Python's `needle in hay` on strings. -/
def strContains (hay needle : String) : Bool :=
  hay.toList.tails.any (fun t => needle.toList.isPrefixOf t)

/-- Python str.lower, modelled characterwise. -/
def strLower (s : String) : String := String.mk (s.toList.map Char.toLower)

/-- Python str.strip: drop surrounding whitespace. -/
def strTrim (s : String) : String :=
  String.mk (((s.toList.dropWhile Char.isWhitespace).reverse.dropWhile Char.isWhitespace).reverse)

/-- Leading slash test (String.startsWith on "/"). -/
def startsWithSlash (s : String) : Bool :=
  match s.toList with
  | '/' :: _ => true
  | _ => false

/-- Trailing slash test (String.endsWith on "/"). -/
def endsWithSlash (s : String) : Bool :=
  match s.toList.getLast? with
  | some '/' => true
  | _ => false

/-- Accumulator form of the single-character split String.splitOn "/". -/
def splitSlashAux : List Char → List Char → List String
  | [], acc => [String.mk acc.reverse]
  | ch :: rest, acc =>
    if ch == '/' then String.mk acc.reverse :: splitSlashAux rest []
    else splitSlashAux rest (ch :: acc)

/-- Python truthiness of an optional string (`None` and `""` are falsy). -/
def truthy : Option String → Bool
  | none => false
  | some s => !(s == "")

/-- Underlying string of an optional parameter (only used when truthy). -/
def oget (o : Option String) : String := o.getD ""

/-- os.path.join for POSIX paths, one component. -/
def pjoin (a b : String) : String :=
  if startsWithSlash b then b
  else if a == "" || endsWithSlash a then a ++ b
  else a ++ "/" ++ b

/-- Nonempty slash-separated components of a path string. -/
def pathComps (s : String) : List String :=
  (splitSlashAux s.toList []).filter (fun c => !(c == ""))

/-- pathlib.Path(s).parts: a leading anchor for absolute paths, then the components. -/
def pathParts (s : String) : List String :=
  if startsWithSlash s then "/" :: pathComps s else pathComps s

/-- pathlib.Path(s).name. -/
def pathName (s : String) : String :=
  ((pathComps s).getLast?).getD ""

/-- pathlib.Path(s).parent.name. -/
def pathParentName (s : String) : String :=
  (((pathComps s).dropLast).getLast?).getD ""

/-- A directory tree: directory name, readability, subdirectories, file names. -/
inductive Dir where
  | mk (dname : String) (readable : Bool) (subdirs : List Dir) (files : List String)
deriving Repr

def Dir.dname : Dir → String
  | .mk n _ _ _ => n

def Dir.readable : Dir → Bool
  | .mk _ r _ _ => r

def Dir.subdirs : Dir → List Dir
  | .mk _ _ s _ => s

def Dir.files : Dir → List String
  | .mk _ _ _ f => f

/-- Navigate a directory tree along path components. -/
def resolveDir : List String → Dir → Option Dir
  | [], d => some d
  | n :: rest, d =>
    match d.subdirs.find? (fun c => c.dname == n) with
    | some c => resolveDir rest c
    | none => none

/-- os.path.isdir. -/
def isdirP (fs : Dir) (s : String) : Bool := (resolveDir (pathComps s) fs).isSome

/-- os.path.exists (a directory or a file). -/
def existsP (fs : Dir) (s : String) : Bool :=
  isdirP fs s ||
    (match (pathComps s).getLast?, resolveDir ((pathComps s).dropLast) fs with
     | some f, some d => d.files.contains f
     | _, _ => false)

/-- os.listdir: `none` models a PermissionError on an unreadable directory
(and a missing directory, which the callers always guard with isdir). -/
def listdirP (fs : Dir) (s : String) : Option (List String) :=
  match resolveDir (pathComps s) fs with
  | none => none
  | some d => if d.readable then some (d.subdirs.map Dir.dname ++ d.files) else none

mutual
/-- os.walk (top-down): preorder traversal yielding (dirpath, dirnames, filenames);
an unreadable directory yields nothing and its subtree is not visited. -/
def walkDir (path : String) : Dir → List (String × List String × List String)
  | .mk _ readable subdirs files =>
    if readable then
      (path, subdirs.map Dir.dname, files) :: walkDirAll path subdirs
    else []

def walkDirAll (parent : String) : List Dir → List (String × List String × List String)
  | [] => []
  | c :: cs => walkDir (pjoin parent c.dname) c ++ walkDirAll parent cs
end

/-- os.walk from a path string (nonexistent tops yield nothing). -/
def oswalk (fs : Dir) (top : String) : List (String × List String × List String) :=
  match resolveDir (pathComps top) fs with
  | some d => walkDir top d
  | none => []

mutual
/-- Well-formedness of a directory tree: no entry name begins with the path
separator. This always holds of real directory listings, where an entry name
never contains a slash, and it makes os.path.join extend the parent path. -/
def validNames : Dir → Bool
  | .mk _ _ subs _ => validNamesAll subs

def validNamesAll : List Dir → Bool
  | [] => true
  | c :: cs => !startsWithSlash c.dname && validNames c && validNamesAll cs
end

/-- The twelve recognized month names (search.py _FULL_MONTHS). -/
def fullMonths : List String :=
  ["january", "february", "march", "april", "may", "june",
   "july", "august", "september", "october", "november", "december"]

/-- search.py _norm_month. -/
def normMonth (month : Option String) : Option String :=
  if !truthy month then none
  else
    let m := strLower (strTrim (oget month))
    if m == "any" || m == "" then none
    else if fullMonths.contains m then some m else none

/-- A dash or whitespace, the characters matched by the regex class of dash
and backslash-s in search.py _EXP_RX. -/
def isSepChar (c : Char) : Bool := c == '-' || c.isWhitespace

/-- The digits group of search.py _EXP_RX, the IGNORECASE regex anchored on
both sides that accepts optional whitespace, an optional literal exp followed
by any run of dash/whitespace characters, one or more digits, and optional
trailing whitespace.  The match is deterministic because digits are disjoint
from the letters e/x/p and from the separator class. -/
def expDigitsOf (s : String) : Option (List Char) :=
  let cs0 := s.toList.dropWhile Char.isWhitespace
  let cs1 :=
    match cs0 with
    | c1 :: c2 :: c3 :: rest =>
      if (c1 == 'e' || c1 == 'E') && (c2 == 'x' || c2 == 'X') && (c3 == 'p' || c3 == 'P')
      then rest.dropWhile isSepChar
      else cs0
    | _ => cs0
  let ds := cs1.takeWhile Char.isDigit
  let rest := cs1.dropWhile Char.isDigit
  if !ds.isEmpty && rest.all Char.isWhitespace then some ds else none

/-- search.py _norm_exp_code (the formatted string is already uppercase, so
the final .upper() of the source is the identity here). -/
def normExpCode (s : String) : Option String :=
  if s == "" then none
  else (expDigitsOf s).map (fun ds => "EXP-" ++ String.mk ds)

/-- The body of expDigitsOf after the leading-whitespace strip, factored
out so that case analysis on the stripped character list is possible. -/
def expCore (cs0 : List Char) : Option (List Char) :=
  let cs1 :=
    match cs0 with
    | c1 :: c2 :: c3 :: rest =>
      if (c1 == 'e' || c1 == 'E') && (c2 == 'x' || c2 == 'X') && (c3 == 'p' || c3 == 'P')
      then rest.dropWhile isSepChar
      else cs0
    | _ => cs0
  let ds := cs1.takeWhile Char.isDigit
  if !ds.isEmpty && (cs1.dropWhile Char.isDigit).all Char.isWhitespace then some ds else none

/-- search.py _dir_contains_month. -/
def dirContainsMonth (dirParts : List String) (month : Option String) : Bool :=
  if !truthy month then true
  else
    let m := strLower (strTrim (oget month))
    dirParts.any (fun seg => strContains (strLower seg) m)

/-- search.py _month_ok_for_file: directory segments only (the file name,
the last path part, is excluded). -/
def monthOkFile (fullPath : String) (month year : Option String) : Bool :=
  if !truthy month then true
  else dirContainsMonth (pathParts fullPath).dropLast month

/-- search.py _month_ok_for_folder: every segment of the full path. -/
def monthOkFolder (fullPath : String) (month year : Option String) : Bool :=
  if !truthy month then true
  else dirContainsMonth (pathParts fullPath) month

/-- search.py _passes_filters_file. -/
def passesFiltersFile (fileName fullPath query : String)
    (company year month : Option String) : Bool :=
  let nameL := (strLower fileName)
  let pathL := (strLower fullPath)
  if !(query == "") && !strContains nameL (strLower query) then false
  else if truthy company && !strContains pathL (strLower (oget company)) then false
  else if truthy year && !truthy month && !strContains pathL (strLower (oget year)) then false
  else if !monthOkFile fullPath month year then false
  else true

/-- search.py _enumerate_effective_roots. -/
def enumerateEffectiveRoots (fs : Dir) (roots : List String)
    (year month : Option String) : List String :=
  if !truthy year && !truthy month then
    roots.filter (fun r => existsP fs r)
  else if truthy year && !truthy month then
    roots.foldl (fun eff r =>
      let ydir := pjoin r (oget year)
      if isdirP fs ydir then eff ++ [ydir] else eff) []
  else if truthy month && !truthy year then
    let m := strLower (strTrim (oget month))
    roots.foldl (fun eff r =>
      if !isdirP fs r then eff
      else
        match listdirP fs r with
        | none => eff
        | some names =>
          names.foldl (fun eff2 nm =>
            let full := pjoin r nm
            if isdirP fs full && strContains (strLower nm) m then eff2 ++ [full] else eff2) eff) []
  else
    let m := strLower (strTrim (oget month))
    roots.foldl (fun eff r =>
      let ydir := pjoin r (oget year)
      if !isdirP fs ydir then eff
      else
        match listdirP fs ydir with
        | none => eff
        | some names =>
          names.foldl (fun eff2 nm =>
            let full := pjoin ydir nm
            if isdirP fs full && strContains (strLower nm) m then eff2 ++ [full] else eff2) eff) []

structure MatchRecord where
  kind : String
  file_name : String
  parent_folder : String
  full_path : String
deriving Repr, DecidableEq

/-- The flat match list built by search.py walk_search before sorting. -/
def walkSearchMatches (fs : Dir) (roots : List String) (query : String)
    (year month company : Option String) : List MatchRecord :=
  let m := normMonth month
  let q := strTrim query
  let rootsToWalk := enumerateEffectiveRoots fs roots year m
  rootsToWalk.flatMap (fun root =>
    if !existsP fs root then []
    else
      (oswalk fs root).flatMap (fun entry =>
        let dirpath := entry.1
        let folderName := pathName dirpath
        (if !(q == "") && strContains (strLower folderName) (strLower q) && monthOkFolder dirpath m year
         then [MatchRecord.mk "folder" folderName (pathParentName dirpath) dirpath]
         else []) ++
        entry.2.2.filterMap (fun fname =>
          let full := pjoin dirpath fname
          if passesFiltersFile fname full q company year m
          then some (MatchRecord.mk "file" fname (pathName dirpath) full)
          else none)))

/-- The first component of walk_search's sort key (False for folders). -/
def isFileKind (r : MatchRecord) : Bool := !(r.kind == "folder")

/-- Non-strict order of walk_search's sort key: the pair of the kind flag
and the lowercased file name, compared lexicographically. -/
def recLe (a b : MatchRecord) : Prop :=
  (isFileKind a = false ∧ isFileKind b = true) ∨
    (isFileKind a = isFileKind b ∧ (strLower a.file_name) ≤ (strLower b.file_name))

instance : DecidableRel recLe := fun a b => by unfold recLe; infer_instance

/-- The stable ascending sort applied by walk_search and coverage_rows. -/
def sortMatches (l : List MatchRecord) : List MatchRecord := List.insertionSort recLe l

structure SearchResult where
  count : Nat
  page : Nat
  page_size : Nat
  total_pages : Nat
  items : List MatchRecord
deriving Repr, DecidableEq

/-- search.py walk_search.  page and page_size are taken as naturals; the
claims only concern page ≥ 1 and page_size ≥ 1, where Python's
max(0, (page-1)*page_size) and slicing agree with Nat arithmetic. -/
def walkSearch (fs : Dir) (roots : List String) (query : String)
    (year month company : Option String) (page pageSize : Nat) : SearchResult :=
  let m := normMonth month
  let rootsToWalk := enumerateEffectiveRoots fs roots year m
  if rootsToWalk.isEmpty then
    ⟨0, page, pageSize, 1, []⟩
  else
    let sorted := sortMatches (walkSearchMatches fs roots query year month company)
    let total := sorted.length
    let start := (page - 1) * pageSize
    let stop := min total (start + pageSize)
    ⟨total, page, pageSize, max 1 ((total + pageSize - 1) / pageSize),
      (sorted.drop start).take (stop - start)⟩

/-- Canonical parent name for a lowercased segment: models the dict built by
the comprehension mapping p.lower() to p, where a later entry overwrites an
earlier one with the same lowercased key. -/
def canonLookup (parents : List String) (segLower : String) : Option String :=
  parents.reverse.find? (fun p => (strLower p) == segLower)

/-- search.py _find_parent_in_path. -/
def findParentInPath (parents : List String) (pathStr : String) : Option String :=
  (pathParts pathStr).findSome? (fun seg => canonLookup parents (strLower seg))

structure CovRow where
  parent : String
  present : Bool
  found : Bool
  count : Nat
  items : List MatchRecord
deriving Repr, DecidableEq

def initCovRow (p : String) : CovRow := ⟨p, false, false, 0, []⟩

/-- Read a row by parent name, modelling the dict read rows[p]. -/
def covGet (rows : List CovRow) (p : String) : CovRow :=
  ((rows.find? (fun r => r.parent == p))).getD (initCovRow p)

/-- Mark a canonical parent present. -/
def covMarkPresent (rows : List CovRow) (canon : String) : List CovRow :=
  rows.map (fun r => if r.parent == canon then { r with present := true } else r)

/-- Attribute one match to a canonical parent: found, count, capped items. -/
def covAddHit (cap : Nat) (rows : List CovRow) (canon : String) (rcd : MatchRecord) :
    List CovRow :=
  rows.map (fun r =>
    if r.parent == canon then
      { r with
        found := true
        count := r.count + 1
        items := if r.items.length < cap then r.items ++ [rcd] else r.items }
    else r)

/-- Row bookkeeping invariant of coverage_rows: found reflects a positive
count and items holds exactly the first min(count, cap) attributed records. -/
def RowInv (cap : Nat) (r : CovRow) : Prop :=
  (r.found = true ↔ 0 < r.count) ∧ r.items.length = min r.count cap

/-- Present marks of one walk entry: the listed dirnames, then the directory
itself. -/
def covPresentStep (parents : List String) (rows0 : List CovRow)
    (entry : String × List String × List String) : List CovRow :=
  let rows1 := entry.2.1.foldl (fun rows d =>
    match canonLookup parents (strLower d) with
    | some canon => covMarkPresent rows canon
    | none => rows) rows0
  match canonLookup parents (strLower (pathName entry.1)) with
  | some canon => covMarkPresent rows1 canon
  | none => rows1

/-- Folder-name match contribution of one walk entry (query nonempty, folder
name matched, attributed parent found, month then company/year path checks). -/
def covFolderStep (parents : List String) (q : String) (company year month : Option String)
    (cap : Nat) (rows2 : List CovRow) (entry : String × List String × List String) :
    List CovRow :=
  let dirpath := entry.1
  if !(q == "") then
    let folderName := pathName dirpath
    if strContains (strLower folderName) (strLower q) then
      match findParentInPath parents dirpath with
      | some parentForDir =>
        if monthOkFolder dirpath month year then
          let pl := (strLower dirpath)
          if (!truthy company || strContains pl (strLower (oget company))) &&
             (!truthy year || truthy month || strContains pl (strLower (oget year))) then
            covAddHit cap rows2 parentForDir
              (MatchRecord.mk "folder" folderName (pathParentName dirpath) dirpath)
          else rows2
        else rows2
      | none => rows2
    else rows2
  else rows2

/-- File match contributions of one walk entry. -/
def covFileStep (parents : List String) (q : String) (company year month : Option String)
    (cap : Nat) (rows3 : List CovRow) (entry : String × List String × List String) :
    List CovRow :=
  entry.2.2.foldl (fun rows fname =>
    let full := pjoin entry.1 fname
    if passesFiltersFile fname full q company year month then
      match findParentInPath parents full with
      | some parentForFile =>
        covAddHit cap rows parentForFile
          (MatchRecord.mk "file" fname (pathName entry.1) full)
      | none => rows
    else rows) rows3

/-- The body of coverage_rows for one os.walk entry. -/
def covEntryStep (parents : List String) (q : String) (company year month : Option String)
    (cap : Nat) (rows0 : List CovRow) (entry : String × List String × List String) :
    List CovRow :=
  covFileStep parents q company year month cap
    (covFolderStep parents q company year month cap
      (covPresentStep parents rows0 entry) entry) entry

/-- search.py coverage_rows (the returned rows list).  The rows dict keyed by
parent name is modelled as a list in parents order; updates rewrite every row
with the addressed parent name, which coincides with the dict behaviour since
duplicate keys collapse to one shared entry. -/
def coverageRows (fs : Dir) (parents roots : List String) (query : String)
    (year month company : Option String) (cap : Nat) : List CovRow :=
  let m := normMonth month
  let q := strTrim query
  let rows0 := parents.map initCovRow
  let rootsToWalk := enumerateEffectiveRoots fs roots year m
  if rootsToWalk.isEmpty then rows0
  else
    let rowsW := rootsToWalk.foldl (fun rows root =>
      if !existsP fs root then rows
      else (oswalk fs root).foldl (covEntryStep parents q company year m cap) rows) rows0
    let rowsS := rowsW.map (fun r => { r with items := sortMatches r.items })
    parents.map (fun p => covGet rowsS p)

structure AvailEntry where
  parent : String
  count : Nat
  items : List MatchRecord
deriving Repr, DecidableEq

structure MonthlyResult where
  periodYear : String
  periodMonth : String
  available : List AvailEntry
  missing : List String
deriving Repr, DecidableEq

/-- Lowercased-file-name order used by the monthly item sort. -/
def nameLe (a b : MatchRecord) : Prop := (strLower a.file_name) ≤ (strLower b.file_name)

instance : DecidableRel nameLe := fun a b => by unfold nameLe; infer_instance

/-- Read a bucket by parent name, modelling the dict read grouped[p]. -/
def grpGet (g : List (String × List MatchRecord)) (p : String) : List MatchRecord :=
  (((g.find? (fun e => e.1 == p))).map (fun e => e.2)).getD []

/-- File grouping of one walk entry of monthly_coverage: company substring
check on the full path, the defensive month check, then attribution to the
parent found among the path segments, with the capped append. -/
def monthlyEntryStep (parents : List String) (m year company : Option String) (cap : Nat)
    (g : List (String × List MatchRecord)) (entry : String × List String × List String) :
    List (String × List MatchRecord) :=
  entry.2.2.foldl (fun g3 fname =>
    let full := pjoin entry.1 fname
    if truthy company && !strContains (strLower full) (strLower (oget company)) then g3
    else if !monthOkFile full m year then g3
    else
      match findParentInPath parents full with
      | none => g3
      | some canon =>
        g3.map (fun e =>
          if e.1 == canon then
            (e.1, if e.2.length ≥ cap then e.2
                  else e.2 ++ [MatchRecord.mk "file" fname (pathName entry.1) full])
          else e)) g

/-- search.py monthly_coverage.  The grouped dict is modelled like the rows
dict of coverage_rows (list in parents order, update-by-key). -/
def monthlyCoverage (fs : Dir) (parents roots : List String)
    (year month company : Option String) (cap : Nat) : MonthlyResult :=
  let m := normMonth month
  let rootsToWalk := enumerateEffectiveRoots fs roots year m
  if rootsToWalk.isEmpty then
    ⟨if truthy year then oget year else "", oget m, [], parents⟩
  else
    let grouped0 := parents.map (fun p => (p, ([] : List MatchRecord)))
    let grouped := rootsToWalk.foldl (fun g root =>
      if !existsP fs root then g
      else (oswalk fs root).foldl (monthlyEntryStep parents m year company cap) g) grouped0
    let sortedG := grouped.map (fun e => (e.1, List.insertionSort nameLe e.2))
    let available := parents.filterMap (fun p =>
      let items := grpGet sortedG p
      if items.length > 0 then some (AvailEntry.mk p items.length items) else none)
    let missing := parents.filter (fun p => (grpGet sortedG p).length == 0)
    ⟨if truthy year then oget year else "", oget m, available, missing⟩

structure ExpItem where
  exp : String
  missing : List String
  found : List String
deriving Repr, DecidableEq

structure MultiResult where
  parents_order : List String
  count : Nat
  limit : Nat
  items : List ExpItem
  summary : List (String × Nat)
  invalid : List String
deriving Repr, DecidableEq

/-- One tally increment: missing_counts[p] = missing_counts.get(p, 0) + 1. -/
def bumpCount (c : List (String × Nat)) (p : String) : List (String × Nat) :=
  if c.any (fun e => e.1 == p) then
    c.map (fun e => if e.1 == p then (e.1, e.2 + 1) else e)
  else c ++ [(p, 1)]

/-- The per-code body of multi_exp_missing. -/
def multiStep (fs : Dir) (parents roots : List String) (year m company : Option String)
    (acc : List ExpItem × List (String × Nat)) (exp : String) :
    List ExpItem × List (String × Nat) :=
  let rows := coverageRows fs parents roots exp year m company 1
  let missing := (rows.filter (fun r => !r.found)).map (fun r => r.parent)
  let found := (rows.filter (fun r => r.found)).map (fun r => r.parent)
  let counts := missing.foldl bumpCount acc.2
  (acc.1 ++ [ExpItem.mk exp missing found], counts)

/-- search.py multi_exp_missing. -/
def multiExpMissing (fs : Dir) (parents roots codes : List String)
    (year month company : Option String) (limit : Nat) : MultiResult :=
  let m := normMonth month
  let nrmInv := codes.foldl (fun (acc : List String × List String) raw =>
    match normExpCode raw with
    | none => (acc.1, acc.2 ++ [raw])
    | some n => if acc.1.contains n then acc else (acc.1 ++ [n], acc.2)) ([], [])
  let lim := if limit == 0 then 30 else limit
  let normalized := if nrmInv.1.length > lim then nrmInv.1.take lim else nrmInv.1
  let counts0 := parents.map (fun p => (p, (0 : Nat)))
  let processed := normalized.foldl (multiStep fs parents roots year m company) ([], counts0)
  ⟨parents, processed.1.length, lim, processed.1, processed.2, nrmInv.2⟩

/-- Spec rule helper: the immediate subdirectories of a base directory whose
name contains the month text (case-insensitive); missing bases and bases
unreadable due to permission errors contribute nothing. -/
def immediateMonthSubdirs (fs : Dir) (base : String) (monthText : String) : List String :=
  match listdirP fs base with
  | none => []
  | some names =>
    (names.filter (fun nm => isdirP fs (pjoin base nm) && strContains (strLower nm) monthText)).map
      (fun nm => pjoin base nm)

/-- Scope resolution as worded by the spec's four strict rules: neither
selector set gives the configured roots that exist; year only gives the
existing root/year directories; month only gives the month-matching immediate
subdirectories of each root; year and month descends into root/year when it
exists and takes its month-matching immediate subdirectories. -/
def effectiveRootsSpec (fs : Dir) (roots : List String) (year month : Option String) :
    List String :=
  if !truthy year && !truthy month then
    roots.filter (fun r => existsP fs r)
  else if truthy year && !truthy month then
    (roots.map (fun r => pjoin r (oget year))).filter (fun d => isdirP fs d)
  else if truthy month && !truthy year then
    roots.flatMap (fun r => immediateMonthSubdirs fs r (strLower (strTrim (oget month))))
  else
    roots.flatMap (fun r =>
      let ydir := pjoin r (oget year)
      if isdirP fs ydir then immediateMonthSubdirs fs ydir (strLower (strTrim (oget month))) else [])

/-- Case-insensitive EXP letters, as a list of characters. -/
def expLetters (e : List Char) : Prop :=
  ∃ c1 c2 c3, e = [c1, c2, c3] ∧
    (c1 = 'e' ∨ c1 = 'E') ∧ (c2 = 'x' ∨ c2 = 'X') ∧ (c3 = 'p' ∨ c3 = 'P')

/-- Amended code grammar: optional surrounding whitespace, an optional EXP
prefix followed by any run of space/dash separators, then one or more digits;
the canonical form is EXP-(digits). -/
def expGrammar (s : String) (code : String) : Prop :=
  ∃ w1 pre ds w2, s.toList = w1 ++ pre ++ ds ++ w2 ∧
    (∀ c, c ∈ w1 → c.isWhitespace = true) ∧
    (∀ c, c ∈ w2 → c.isWhitespace = true) ∧
    ds ≠ [] ∧ (∀ c, c ∈ ds → c.isDigit = true) ∧
    (pre = [] ∨ ∃ e sep, pre = e ++ sep ∧ expLetters e ∧ (∀ c, c ∈ sep → isSepChar c = true)) ∧
    code = "EXP-" ++ String.mk ds

/-- Strict reading of the original claim wording: an optional EXP,
optionally followed by one space or dash, then digits and nothing else. -/
def strictParses (s : String) : Bool :=
  let cs := s.toList
  (!cs.isEmpty && cs.all Char.isDigit) ||
  (match cs with
   | c1 :: c2 :: c3 :: rest =>
     ((c1 == 'e' || c1 == 'E') && (c2 == 'x' || c2 == 'X') && (c3 == 'p' || c3 == 'P')) &&
       ((!rest.isEmpty && rest.all Char.isDigit) ||
        (match rest with
         | s1 :: rest2 => isSepChar s1 && !rest2.isEmpty && rest2.all Char.isDigit
         | [] => false))
   | _ => false)

/-- First-seen-order deduplication relative to an already-seen set. -/
def dedupFrom (seen : List String) : List String → List String
  | [] => []
  | x :: xs => if seen.contains x then dedupFrom seen xs else x :: dedupFrom (x :: seen) xs

/-- Deduplication dropping later duplicates, keeping first-seen order. -/
def dedupKeepFirst (l : List String) : List String := dedupFrom [] l

/-- Example tree with one matching folder: /data/EXP-1. -/
def fsC1 : Dir := Dir.mk "" true [Dir.mk "data" true [Dir.mk "EXP-1" true [] []] []] []

/-- Example tree with one document: /data/CIPL/a.pdf. -/
def fsW : Dir := Dir.mk "" true [Dir.mk "data" true [Dir.mk "CIPL" true [] ["a.pdf"]] []] []

theorem foldl_append_ite {α β : Type} (c : α → Bool) (g : α → β) :
    ∀ (l : List α) (init : List β),
      l.foldl (fun acc x => if c x then acc ++ [g x] else acc) init
        = init ++ (l.filter c).map g
  | [], init => by simp
  | a :: t, init => by
    rcases h : c a with _ | _
    · simp [List.foldl_cons, h, foldl_append_ite c g t init, List.filter_cons]
    · simp [List.foldl_cons, h, foldl_append_ite c g t (init ++ [g a]), List.filter_cons]

theorem isdir_false_listdir (fs : Dir) (s : String) (h : isdirP fs s = false) :
    listdirP fs s = none := by
  unfold isdirP at h
  unfold listdirP
  rcases hr : resolveDir (pathComps s) fs with _ | d
  · rfl
  · rw [hr] at h
    simp at h

theorem immediate_eq_guard (fs : Dir) (base m : String) :
    (if isdirP fs base then immediateMonthSubdirs fs base m else [])
      = immediateMonthSubdirs fs base m := by
  by_cases h : isdirP fs base = true
  · rw [if_pos h]
  · have h' : isdirP fs base = false := by simpa using h
    rw [if_neg (by simp [h']), immediateMonthSubdirs, isdir_false_listdir fs base h']

theorem month_outer_fold (fs : Dir) (m : String) (basef : String → String) :
    ∀ (roots : List String) (init : List String),
      roots.foldl (fun eff r =>
        if !isdirP fs (basef r) then eff
        else
          match listdirP fs (basef r) with
          | none => eff
          | some names =>
            names.foldl (fun eff2 nm =>
              if isdirP fs (pjoin (basef r) nm) && strContains (strLower nm) m
              then eff2 ++ [pjoin (basef r) nm] else eff2) eff) init
      = init ++ roots.flatMap (fun r =>
          if isdirP fs (basef r) then immediateMonthSubdirs fs (basef r) m else [])
  | [], init => by simp
  | r :: t, init => by
    have step : (if !isdirP fs (basef r) then init
        else
          match listdirP fs (basef r) with
          | none => init
          | some names =>
            names.foldl (fun eff2 nm =>
              if isdirP fs (pjoin (basef r) nm) && strContains (strLower nm) m
              then eff2 ++ [pjoin (basef r) nm] else eff2) init)
        = init ++ (if isdirP fs (basef r) then immediateMonthSubdirs fs (basef r) m else []) := by
      by_cases hd : isdirP fs (basef r) = true
      · rw [if_neg (show ¬((!isdirP fs (basef r)) = true) by simp [hd]), if_pos hd]
        rcases hl : listdirP fs (basef r) with _ | names
        · simp [immediateMonthSubdirs, hl]
        · simp only [immediateMonthSubdirs, hl]
          exact foldl_append_ite _ _ names init
      · have hd' : isdirP fs (basef r) = false := by simpa using hd
        rw [if_pos (show (!isdirP fs (basef r)) = true by simp [hd'])]
        simp [hd']
    simp only [List.foldl_cons, List.flatMap_cons]
    rw [step, month_outer_fold fs m basef t (init ++ _), List.append_assoc]

/-- C2: scope resolution follows the spec's strict four-rule hierarchy;
permission errors during directory listing skip that directory silently. -/
theorem C2_scope_resolution (fs : Dir) (roots : List String) (year month : Option String) :
    enumerateEffectiveRoots fs roots year month = effectiveRootsSpec fs roots year month := by
  simp only [enumerateEffectiveRoots, effectiveRootsSpec]
  split_ifs with h1 h2 h3
  · rfl
  · rw [foldl_append_ite (fun r => isdirP fs (pjoin r (oget year))) (fun r => pjoin r (oget year))
        roots [], List.filter_map]
    simp
    rfl
  · have := month_outer_fold fs (strLower (strTrim (oget month))) (fun r => r) roots []
    simp only [List.nil_append] at this
    rw [this]
    exact List.flatMap_congr (fun r _ => immediate_eq_guard fs r _)
  · have := month_outer_fold fs (strLower (strTrim (oget month)))
      (fun r => pjoin r (oget year)) roots []
    simp only [List.nil_append] at this
    exact this

theorem monthOkFile_eq (fullPath : String) (month year : Option String) :
    monthOkFile fullPath month year
      = (!truthy month || dirContainsMonth (pathParts fullPath).dropLast month) := by
  unfold monthOkFile
  by_cases hm : truthy month = true
  · simp [hm]
  · have hm2 : truthy month = false := by simpa using hm
    simp [hm2]

set_option maxHeartbeats 1000000 in
/-- C6: the file filter accepts a file iff the query is empty or a
case-insensitive substring of the file name, the company is absent or a
substring of the full path, the year is absent or the month present or the
year a substring of the full path, and the month is absent or contained in
some directory segment of the path excluding the file name; in particular
the year substring check is never enforced while a month filter is active. -/
theorem C6_file_filter (fileName fullPath query : String)
    (company year month : Option String) :
    passesFiltersFile fileName fullPath query company year month = true ↔
      ((query = "" ∨ strContains (strLower fileName) (strLower query) = true) ∧
       (truthy company = false ∨ strContains (strLower fullPath) (strLower (oget company)) = true) ∧
       (truthy year = false ∨ truthy month = true ∨
         strContains (strLower fullPath) (strLower (oget year)) = true) ∧
       (truthy month = false ∨ dirContainsMonth (pathParts fullPath).dropLast month = true)) := by
  simp only [passesFiltersFile, monthOkFile_eq]
  by_cases c1 : (!(query == "") && !strContains (strLower fileName) (strLower query)) = true <;>
    by_cases c2 :
      (truthy company && !strContains (strLower fullPath) (strLower (oget company))) = true <;>
      by_cases c3 : (truthy year && !truthy month &&
        !strContains (strLower fullPath) (strLower (oget year))) = true <;>
        by_cases c4 :
          (!(!truthy month || dirContainsMonth (pathParts fullPath).dropLast month)) = true <;>
          (simp_all [beq_iff_eq]; try tauto)

/-- C7 counterexample: on input " june " normalization returns some "june",
which is neither the lowercased input nor the absence of a month filter,
although the lowercased input is not one of the twelve month names. -/
theorem C7_counterexample :
    fullMonths.contains (strLower " june ") = false ∧
    normMonth (some " june ") = some "june" ∧
    ¬(normMonth (some " june ") = some ((strLower " june ")) ∨
      normMonth (some " june ") = none) := by
  refine ⟨by decide, by decide, ?_⟩
  intro h
  rcases h with h | h <;> revert h <;> decide

/-- C7 (amended): normalization yields the stripped lowercased input exactly
when the stripped lowercase form is one of the twelve full English month
names, and otherwise yields no month filter (so "Any", the empty string,
numerals and abbreviations never act as a month constraint); the active
month test is a plain case-insensitive substring check over directory
segments, so filter "june" matches segment "6. June-2025" while filter
"march" does not. -/
theorem C7_month_normalization :
    (∀ x : String, normMonth (some x) =
       if fullMonths.contains (strLower (strTrim x)) then some (strLower (strTrim x)) else none) ∧
    normMonth none = none ∧
    dirContainsMonth ["6. June-2025"] (some "june") = true ∧
    dirContainsMonth ["6. June-2025"] (some "march") = false ∧
    normMonth (some "6") = none ∧
    normMonth (some "Any") = none ∧
    normMonth (some "June") = some "june" := by
  refine ⟨?_, by decide, by decide, by decide, by decide, by decide, by decide⟩
  intro x
  by_cases hx : x = ""
  · subst hx
    decide
  · have ht : truthy (some x) = true := by simp [truthy, hx]
    unfold normMonth
    rw [if_neg (show ¬((!truthy (some x)) = true) by simp [ht])]
    show (if strLower (strTrim (oget (some x))) == "any" || strLower (strTrim (oget (some x))) == ""
          then none
          else if fullMonths.contains (strLower (strTrim (oget (some x))))
            then some (strLower (strTrim (oget (some x)))) else none)
        = if fullMonths.contains (strLower (strTrim x)) then some (strLower (strTrim x)) else none
    have hog : oget (some x) = x := rfl
    rw [hog]
    by_cases ha : strLower (strTrim x) = "any"
    · rw [ha]
      decide
    · by_cases he : strLower (strTrim x) = ""
      · rw [he]
        decide
      · rw [if_neg (show ¬((strLower (strTrim x) == "any" || strLower (strTrim x) == "") = true) by
          simp [ha, he])]

theorem str_append_empty (s : String) : s ++ "" = s := by
  cases s with | mk l =>
  show String.mk (l ++ []) = String.mk l
  rw [List.append_nil]

theorem str_append_assoc (a b c : String) : (a ++ b) ++ c = a ++ (b ++ c) := by
  cases a with | mk la =>
  cases b with | mk lb =>
  cases c with | mk lc =>
  show String.mk ((la ++ lb) ++ lc) = String.mk (la ++ (lb ++ lc))
  rw [List.append_assoc]

theorem strLower_append (a b : String) : strLower (a ++ b) = strLower a ++ strLower b := by
  cases a with | mk la =>
  cases b with | mk lb =>
  show String.mk ((la ++ lb).map Char.toLower)
    = String.mk (la.map Char.toLower ++ lb.map Char.toLower)
  rw [List.map_append]

theorem strContains_of_parts (pre y ext : String) :
    strContains ((pre ++ y) ++ ext) y = true := by
  unfold strContains
  rw [List.any_eq_true]
  refine ⟨y.toList ++ ext.toList, ?_, ?_⟩
  · rw [List.mem_tails]
    have hc : ((pre ++ y) ++ ext).toList = pre.toList ++ (y.toList ++ ext.toList) := by
      cases pre with | mk lp =>
      cases y with | mk ly =>
      cases ext with | mk le =>
      show (lp ++ ly) ++ le = lp ++ (ly ++ le)
      rw [List.append_assoc]
    rw [hc]
    exact List.suffix_append _ _
  · rw [ List.isPrefixOf_iff_prefix]
    exact List.prefix_append _ _

theorem pjoin_parts (a b : String) : ∃ pre, pjoin a b = pre ++ b := by
  unfold pjoin
  by_cases h1 : startsWithSlash b = true
  · rw [if_pos h1]
    exact ⟨"", rfl⟩
  · rw [if_neg h1]
    by_cases h2 : (a == "" || endsWithSlash a) = true
    · rw [if_pos h2]
      exact ⟨a, rfl⟩
    · rw [if_neg h2]
      exact ⟨a ++ "/", rfl⟩

theorem pjoin_ext (a b : String) (hb : startsWithSlash b = false) :
    ∃ ext, pjoin a b = a ++ ext := by
  unfold pjoin
  rw [if_neg (show ¬(startsWithSlash b = true) by rw [hb]; decide)]
  by_cases h2 : (a == "" || endsWithSlash a) = true
  · rw [if_pos h2]
    exact ⟨b, rfl⟩
  · rw [if_neg h2]
    exact ⟨"/" ++ b, str_append_assoc a "/" b⟩

theorem validNames_mem (cs : List Dir) (c : Dir) (hm : c ∈ cs)
    (hv : validNamesAll cs = true) : validNames c = true := by
  induction cs with
  | nil => simp at hm
  | cons h t ih =>
    unfold validNamesAll at hv
    rw [Bool.and_eq_true, Bool.and_eq_true] at hv
    rcases List.mem_cons.mp hm with he | hmt
    · subst he
      exact hv.1.2
    · exact ih hmt hv.2

theorem validNames_resolve : ∀ (comps : List String) (d0 d : Dir),
    resolveDir comps d0 = some d → validNames d0 = true → validNames d = true
  | [], d0, d, h, hv => by
    unfold resolveDir at h
    rw [Option.some.injEq] at h
    subst h
    exact hv
  | n :: rest, d0, d, h, hv => by
    unfold resolveDir at h
    rcases hf : d0.subdirs.find? (fun c => c.dname == n) with _ | c
    · rw [hf] at h
      simp at h
    · rw [hf] at h
      have hm : c ∈ d0.subdirs := List.mem_of_find?_eq_some hf
      have hva : validNamesAll d0.subdirs = true := by
        cases d0 with | mk nm rd subs fls => exact hv
      exact validNames_resolve rest c d h (validNames_mem d0.subdirs c hm hva)

mutual
theorem walkDir_extends : ∀ (d : Dir) (path : String), validNames d = true →
    ∀ e ∈ walkDir path d, ∃ ext, e.1 = path ++ ext
  | .mk n rd subs fls, path, hv, e, he => by
    unfold walkDir at he
    by_cases hrd : rd = true
    · rw [if_pos hrd] at he
      rcases List.mem_cons.mp he with heq | htail
      · subst heq
        exact ⟨"", (str_append_empty path).symm⟩
      · exact walkDirAll_extends subs path hv e htail
    · rw [if_neg hrd] at he
      simp at he

theorem walkDirAll_extends : ∀ (cs : List Dir) (parent : String), validNamesAll cs = true →
    ∀ e ∈ walkDirAll parent cs, ∃ ext, e.1 = parent ++ ext
  | [], _, _, e, he => by simp [walkDirAll] at he
  | c :: cs, parent, hv, e, he => by
    unfold validNamesAll at hv
    rw [Bool.and_eq_true, Bool.and_eq_true, Bool.not_eq_true'] at hv
    unfold walkDirAll at he
    rcases List.mem_append.mp he with h1 | h2
    · obtain ⟨ext1, he1⟩ := walkDir_extends c (pjoin parent c.dname) hv.1.2 e h1
      obtain ⟨ext2, he2⟩ := pjoin_ext parent c.dname hv.1.1
      exact ⟨ext2 ++ ext1, by rw [he1, he2, str_append_assoc]⟩
    · exact walkDirAll_extends cs parent hv.2 e h2
end

theorem oswalk_extends (fs : Dir) (top : String) (hv : validNames fs = true) :
    ∀ e ∈ oswalk fs top, ∃ ext, e.1 = top ++ ext := by
  intro e he
  unfold oswalk at he
  rcases hres : resolveDir (pathComps top) fs with _ | d
  · rw [hres] at he
    simp at he
  · rw [hres] at he
    exact walkDir_extends d top (validNames_resolve (pathComps top) fs d hres hv) e he

theorem year_fold_mem (fs : Dir) (y : String) :
    ∀ (roots acc : List String) (x : String),
      x ∈ roots.foldl (fun eff r =>
        if isdirP fs (pjoin r y) then eff ++ [pjoin r y] else eff) acc →
      x ∈ acc ∨ ∃ r0, x = pjoin r0 y
  | [], acc, x, h => Or.inl (by simpa using h)
  | rt :: t, acc, x, h => by
    simp only [List.foldl_cons] at h
    by_cases hd : isdirP fs (pjoin rt y) = true
    · rw [if_pos hd] at h
      rcases year_fold_mem fs y t _ x h with hin | hex
      · rcases List.mem_append.mp hin with hin1 | hin2
        · exact Or.inl hin1
        · exact Or.inr ⟨rt, by simpa using hin2⟩
      · exact Or.inr hex
    · rw [if_neg hd] at h
      exact year_fold_mem fs y t acc x h

/-- C1 counterexample: with company filter "acme" and query "EXP-1" over the
tree /data/EXP-1, the baseline walk emits a folder record although "acme" is
not a substring of the record's full path, so the company conjunct of the
full folder predicate is not enforced by walk_search. -/
theorem C1_counterexample :
    walkSearchMatches fsC1 ["/data"] "EXP-1" none none (some "acme")
      = [MatchRecord.mk "folder" "EXP-1" "data" "/data/EXP-1"] ∧
    truthy (some "acme") = true ∧
    strContains (strLower "/data/EXP-1") (strLower "acme") = false := by
  refine ⟨by decide, by decide, by decide⟩

/-- C1 (amended): over any tree whose entry names do not begin with the path
separator (always true of real directory listings), a folder emitted by the
baseline walk satisfies the query, year and month conjuncts of the folder
predicate — the stripped query is nonempty and a case-insensitive substring
of the folder's own name; year absent OR normalized month present OR the year
a case-insensitive substring of the full path (year-only scoping walks only
under root/year, so the year is always in the path); and the full path passes
the month check — while the company conjunct is not enforced on folder
records. -/
theorem C1_folder_records (fs : Dir) (roots : List String) (query : String)
    (year month company : Option String) (r : MatchRecord)
    (hv : validNames fs = true)
    (hr : r ∈ walkSearchMatches fs roots query year month company)
    (hk : r.kind = "folder") :
    ¬(strTrim query = "") ∧
    strContains (strLower r.file_name) (strLower (strTrim query)) = true ∧
    monthOkFolder r.full_path (normMonth month) year = true ∧
    (truthy year = false ∨ truthy (normMonth month) = true ∨
      strContains (strLower r.full_path) (strLower (oget year)) = true) := by
  simp only [walkSearchMatches, List.mem_flatMap] at hr
  obtain ⟨root, hroot, hr⟩ := hr
  by_cases hex : existsP fs root = true
  · rw [if_neg (show ¬((!existsP fs root) = true) by simp [hex])] at hr
    simp only [List.mem_flatMap] at hr
    obtain ⟨entry, hentry, hr⟩ := hr
    rw [List.mem_append] at hr
    rcases hr with hr | hr
    · by_cases hcond : (!(strTrim query == "") &&
          strContains (strLower (pathName entry.1)) (strLower (strTrim query)) &&
          monthOkFolder entry.1 (normMonth month) year) = true
      · rw [if_pos hcond] at hr
        simp only [List.mem_singleton] at hr
        subst hr
        simp only [Bool.and_eq_true, Bool.not_eq_true', beq_eq_false_iff_ne] at hcond
        refine ⟨hcond.1.1, hcond.1.2, hcond.2, ?_⟩
        by_cases hy : truthy year = true
        · by_cases hm : truthy (normMonth month) = true
          · exact Or.inr (Or.inl hm)
          · have hm2 : truthy (normMonth month) = false := by simpa using hm
            right
            right
            unfold enumerateEffectiveRoots at hroot
            rw [if_neg (show ¬((!truthy year && !truthy (normMonth month)) = true) by
                rw [hy]; simp),
              if_pos (show (truthy year && !truthy (normMonth month)) = true by
                rw [hy, hm2]; decide)] at hroot
            rcases year_fold_mem fs (oget year) roots [] root hroot with habs | ⟨r0, hr0⟩
            · simp at habs
            · obtain ⟨pre, hpre⟩ := pjoin_parts r0 (oget year)
              obtain ⟨ext, hext⟩ := oswalk_extends fs root hv entry hentry
              show strContains (strLower entry.1) (strLower (oget year)) = true
              rw [hext, hr0, hpre, strLower_append, strLower_append]
              exact strContains_of_parts (strLower pre) (strLower (oget year)) (strLower ext)
        · exact Or.inl (by simpa using hy)
      · rw [if_neg hcond] at hr
        simp at hr
    · simp only [List.mem_filterMap] at hr
      obtain ⟨fname, hf, hr⟩ := hr
      by_cases hp : passesFiltersFile fname (pjoin entry.1 fname) (strTrim query)
          company year (normMonth month) = true
      · rw [if_pos hp] at hr
        rw [Option.some.injEq] at hr
        subst hr
        simp at hk
      · rw [if_neg hp] at hr
        simp at hr
  · rw [if_pos (show (!existsP fs root) = true by simp [hex])] at hr
    simp at hr

theorem C1_folder_records_witness :
    validNames fsC1 = true ∧
    (MatchRecord.mk "folder" "EXP-1" "data" "/data/EXP-1"
        ∈ walkSearchMatches fsC1 ["/data"] "EXP-1" none none (some "acme")) ∧
    (MatchRecord.mk "folder" "EXP-1" "data" "/data/EXP-1").kind = "folder" ∧
    (¬(strTrim "EXP-1" = "") ∧
     strContains (strLower (MatchRecord.mk "folder" "EXP-1" "data" "/data/EXP-1").file_name)
       (strLower (strTrim "EXP-1")) = true ∧
     monthOkFolder (MatchRecord.mk "folder" "EXP-1" "data" "/data/EXP-1").full_path
       (normMonth none) none = true ∧
     (truthy none = false ∨ truthy (normMonth none) = true ∨
       strContains (strLower (MatchRecord.mk "folder" "EXP-1" "data" "/data/EXP-1").full_path)
         (strLower (oget none)) = true)) :=
  ⟨by decide, by decide, by decide,
    C1_folder_records fsC1 ["/data"] "EXP-1" none none (some "acme") _ (by decide) (by decide)
      (by decide)⟩

theorem covGet_parent (rows : List CovRow) (p : String) : (covGet rows p).parent = p := by
  unfold covGet
  rcases hf : rows.find? (fun r => r.parent == p) with _ | r
  · rw [hf]
    rfl
  · rw [hf]
    have hp := List.find?_some hf
    rw [beq_iff_eq] at hp
    simpa using hp

/-- Shared helper: coverage always emits the parents, in order. -/
theorem coverageRows_map_parent (fs : Dir) (parents roots : List String) (query : String)
    (year month company : Option String) (cap : Nat) :
    (coverageRows fs parents roots query year month company cap).map CovRow.parent = parents := by
  have key : ∀ f : String → CovRow, (∀ p, (f p).parent = p) →
      (parents.map f).map CovRow.parent = parents := by
    intro f hf
    rw [List.map_map]
    have : CovRow.parent ∘ f = id := funext hf
    rw [this, List.map_id]
  simp only [coverageRows]
  split
  · exact key initCovRow (fun p => rfl)
  · exact key _ (fun p => covGet_parent _ p)

/-- C3: for unique parents, coverage returns exactly one row per category, in
the parents order, even when every row is all-false (including with an empty
effective scope). -/
theorem C3_coverage_row_shape (fs : Dir) (parents roots : List String) (query : String)
    (year month company : Option String) (cap : Nat) (hnd : parents.Nodup) :
    (coverageRows fs parents roots query year month company cap).map CovRow.parent = parents ∧
    (coverageRows fs parents roots query year month company cap).length = parents.length := by
  refine ⟨coverageRows_map_parent fs parents roots query year month company cap, ?_⟩
  have := congrArg List.length (coverageRows_map_parent fs parents roots query year month company cap)
  simpa using this

theorem C3_witness :
    ["A", "B"].Nodup ∧
    ((coverageRows fsW ["A", "B"] [] "" none none none 5).map CovRow.parent = ["A", "B"] ∧
     (coverageRows fsW ["A", "B"] [] "" none none none 5).length = (["A", "B"] : List String).length) :=
  ⟨by decide, C3_coverage_row_shape fsW ["A", "B"] [] "" none none none 5 (by decide)⟩

theorem rowInv_foldl {β : Type} (cap : Nat) (f : List CovRow → β → List CovRow)
    (hf : ∀ rows b, (∀ r ∈ rows, RowInv cap r) → ∀ r ∈ f rows b, RowInv cap r) :
    ∀ (l : List β) (rows : List CovRow), (∀ r ∈ rows, RowInv cap r) →
      ∀ r ∈ l.foldl f rows, RowInv cap r
  | [], rows, h => by simpa using h
  | b :: t, rows, h => by
    simp only [List.foldl_cons]
    exact rowInv_foldl cap f hf t (f rows b) (hf rows b h)

theorem rowInv_mark (cap : Nat) (rows : List CovRow) (canon : String)
    (h : ∀ r ∈ rows, RowInv cap r) : ∀ r ∈ covMarkPresent rows canon, RowInv cap r := by
  intro r hr
  unfold covMarkPresent at hr
  rw [List.mem_map] at hr
  obtain ⟨r0, hr0, heq⟩ := hr
  by_cases hp : (r0.parent == canon) = true
  · rw [if_pos hp] at heq
    subst heq
    exact h r0 hr0
  · rw [if_neg hp] at heq
    subst heq
    exact h r0 hr0

theorem rowInv_add (cap : Nat) (rows : List CovRow) (canon : String) (rcd : MatchRecord)
    (h : ∀ r ∈ rows, RowInv cap r) : ∀ r ∈ covAddHit cap rows canon rcd, RowInv cap r := by
  intro r hr
  unfold covAddHit at hr
  rw [List.mem_map] at hr
  obtain ⟨r0, hr0, heq⟩ := hr
  by_cases hp : (r0.parent == canon) = true
  · rw [if_pos hp] at heq
    subst heq
    obtain ⟨hfc, hlen⟩ := h r0 hr0
    constructor
    · simp
    · show (if r0.items.length < cap then r0.items ++ [rcd] else r0.items).length
        = min (r0.count + 1) cap
      by_cases hlt : r0.items.length < cap
      · rw [if_pos hlt]
        rw [List.length_append, List.length_singleton]
        omega
      · rw [if_neg hlt]
        omega
  · rw [if_neg hp] at heq
    subst heq
    exact h r0 hr0

theorem rowInv_markOpt (cap : Nat) (rows : List CovRow) (co : Option String)
    (h : ∀ r ∈ rows, RowInv cap r) :
    ∀ r ∈ (match co with
            | some canon => covMarkPresent rows canon
            | none => rows), RowInv cap r := by
  rcases co with _ | canon
  · exact h
  · exact rowInv_mark cap rows canon h

theorem rowInv_presentStep (cap : Nat) (parents : List String) (rows : List CovRow)
    (entry : String × List String × List String) (h : ∀ r ∈ rows, RowInv cap r) :
    ∀ r ∈ covPresentStep parents rows entry, RowInv cap r := by
  unfold covPresentStep
  exact rowInv_markOpt cap _ _
    (rowInv_foldl cap _ (fun rows b hb => rowInv_markOpt cap rows _ hb) entry.2.1 rows h)

theorem rowInv_folderStep (cap : Nat) (parents : List String) (q : String)
    (company year month : Option String) (rows : List CovRow)
    (entry : String × List String × List String) (h : ∀ r ∈ rows, RowInv cap r) :
    ∀ r ∈ covFolderStep parents q company year month cap rows entry, RowInv cap r := by
  simp only [covFolderStep]
  repeat' split
  all_goals first
    | exact h
    | exact rowInv_add cap rows _ _ h

theorem rowInv_fileStep (cap : Nat) (parents : List String) (q : String)
    (company year month : Option String) (rows : List CovRow)
    (entry : String × List String × List String) (h : ∀ r ∈ rows, RowInv cap r) :
    ∀ r ∈ covFileStep parents q company year month cap rows entry, RowInv cap r := by
  unfold covFileStep
  refine rowInv_foldl cap _ ?_ entry.2.2 rows h
  intro rows2 fname h2
  dsimp only
  repeat' split
  all_goals first
    | exact h2
    | exact rowInv_add cap rows2 _ _ h2

theorem rowInv_entryStep (cap : Nat) (parents : List String) (q : String)
    (company year month : Option String) (rows : List CovRow)
    (entry : String × List String × List String) (h : ∀ r ∈ rows, RowInv cap r) :
    ∀ r ∈ covEntryStep parents q company year month cap rows entry, RowInv cap r := by
  unfold covEntryStep
  exact rowInv_fileStep cap parents q company year month _ entry
    (rowInv_folderStep cap parents q company year month _ entry
      (rowInv_presentStep cap parents rows entry h))

theorem rowInv_covGet (cap : Nat) (rows : List CovRow) (p : String)
    (h : ∀ r ∈ rows, RowInv cap r) : RowInv cap (covGet rows p) := by
  unfold covGet
  rcases hf : rows.find? (fun r => r.parent == p) with _ | r
  · rw [hf]
    exact ⟨by simp [initCovRow], by simp [initCovRow]⟩
  · rw [hf]
    exact h r (List.mem_of_find?_eq_some hf)

theorem rowInv_sortItems (cap : Nat) (rows : List CovRow)
    (h : ∀ r ∈ rows, RowInv cap r) :
    ∀ r ∈ rows.map (fun r => { r with items := sortMatches r.items }), RowInv cap r := by
  intro r hr
  rw [List.mem_map] at hr
  obtain ⟨r0, hr0, heq⟩ := hr
  subst heq
  obtain ⟨h1, h2⟩ := h r0 hr0
  exact ⟨h1, by simpa [sortMatches] using h2⟩

/-- C10: in every emitted coverage row, found holds exactly when the count is
positive, and the items list holds min(count, cap) records — the count keeps
growing after the item cap is reached. -/
theorem C10_row_bookkeeping (fs : Dir) (parents roots : List String) (query : String)
    (year month company : Option String) (cap : Nat) :
    ∀ r ∈ coverageRows fs parents roots query year month company cap,
      (r.found = true ↔ 0 < r.count) ∧ r.items.length = min r.count cap := by
  have h0 : ∀ r ∈ parents.map initCovRow, RowInv cap r := by
    intro r hr
    rw [List.mem_map] at hr
    obtain ⟨p, _, heq⟩ := hr
    subst heq
    exact ⟨by simp [initCovRow], by simp [initCovRow]⟩
  simp only [coverageRows]
  split
  · exact fun r hr => h0 r hr
  · intro r hr
    rw [List.mem_map] at hr
    obtain ⟨p, hp, heq⟩ := hr
    subst heq
    refine rowInv_covGet cap _ p (rowInv_sortItems cap _ ?_)
    refine rowInv_foldl cap _ ?_ _ _ h0
    intro rows root hrows
    split
    · exact hrows
    · exact rowInv_foldl cap _
        (fun rows2 entry h2 =>
          rowInv_entryStep cap parents (strTrim query) company year (normMonth month) rows2
            entry h2) _ rows hrows

theorem C10_witness :
    (initCovRow "A" ∈ coverageRows fsW ["A"] [] "" none none none 5) ∧
    ((initCovRow "A").found = true ↔ 0 < (initCovRow "A").count) ∧
    (initCovRow "A").items.length = min (initCovRow "A").count 5 :=
  have h := C10_row_bookkeeping fsW ["A"] [] "" none none none 5 (initCovRow "A") (by decide)
  ⟨by decide, h.1, h.2⟩

theorem recLe_total : ∀ a b : MatchRecord, recLe a b ∨ recLe b a := by
  intro a b
  unfold recLe
  rcases ha : isFileKind a with _ | _ <;> rcases hb : isFileKind b with _ | _ <;>
    rcases le_total (strLower a.file_name) (strLower b.file_name) with h | h <;>
      simp_all

theorem recLe_trans : ∀ a b c : MatchRecord, recLe a b → recLe b c → recLe a c := by
  intro a b c hab hbc
  unfold recLe at hab hbc ⊢
  rcases hab with ⟨ha, hb⟩ | ⟨hk, hn⟩ <;> rcases hbc with ⟨hb2, hc⟩ | ⟨hk2, hn2⟩
  · rw [hb] at hb2
    exact absurd hb2 (by decide)
  · left
    exact ⟨ha, by rw [← hk2]; exact hb⟩
  · left
    exact ⟨by rw [hk]; exact hb2, hc⟩
  · right
    exact ⟨hk.trans hk2, le_trans hn hn2⟩

theorem recLe_imp {a b : MatchRecord} (h : recLe a b) :
    (a.kind = "folder" ∧ ¬(b.kind = "folder")) ∨
    ((a.kind = "folder" ↔ b.kind = "folder") ∧
      strLower a.file_name ≤ strLower b.file_name) := by
  unfold recLe isFileKind at h
  rcases h with ⟨ha, hb⟩ | ⟨hk, hn⟩
  · left
    constructor
    · simpa using ha
    · simpa using hb
  · right
    refine ⟨?_, hn⟩
    rcases hka : (a.kind == "folder") with _ | _ <;>
      rcases hkb : (b.kind == "folder") with _ | _ <;> simp_all

theorem take_min_length {α : Type} (xs : List α) (n : Nat) :
    xs.take (min xs.length n) = xs.take n := by
  rcases Nat.le_total n xs.length with h | h
  · rw [Nat.min_eq_right h]
  · rw [Nat.min_eq_left h, List.take_of_length_le h, List.take_of_length_le (le_refl _)]

theorem sortMatches_nil : sortMatches [] = [] := rfl

theorem walkSearchMatches_empty (fs : Dir) (roots : List String) (query : String)
    (year month company : Option String)
    (h : enumerateEffectiveRoots fs roots year (normMonth month) = []) :
    walkSearchMatches fs roots query year month company = [] := by
  simp [walkSearchMatches, h]

theorem walkSearch_items (fs : Dir) (roots : List String) (query : String)
    (year month company : Option String) (page pageSize : Nat) :
    (walkSearch fs roots query year month company page pageSize).items
      = ((sortMatches (walkSearchMatches fs roots query year month company)).drop
          ((page - 1) * pageSize)).take pageSize := by
  simp only [walkSearch]
  split
  · rename_i h
    rw [List.isEmpty_iff] at h
    rw [walkSearchMatches_empty fs roots query year month company h, sortMatches_nil]
    simp
  · dsimp only
    have harith :
        min (sortMatches (walkSearchMatches fs roots query year month company)).length
            ((page - 1) * pageSize + pageSize) - (page - 1) * pageSize
          = min ((sortMatches (walkSearchMatches fs roots query year month company)).length
              - (page - 1) * pageSize) pageSize := by
      omega
    rw [harith, ← List.length_drop ((page - 1) * pageSize)]
    exact take_min_length _ _

theorem walkSearch_count (fs : Dir) (roots : List String) (query : String)
    (year month company : Option String) (page pageSize : Nat) :
    (walkSearch fs roots query year month company page pageSize).count
      = (sortMatches (walkSearchMatches fs roots query year month company)).length := by
  simp only [walkSearch]
  split
  · rename_i h
    rw [List.isEmpty_iff] at h
    rw [walkSearchMatches_empty fs roots query year month company h, sortMatches_nil]
    rfl
  · rfl

theorem walkSearch_total_pages (fs : Dir) (roots : List String) (query : String)
    (year month company : Option String) (page pageSize : Nat) :
    (walkSearch fs roots query year month company page pageSize).total_pages
      = max 1 (((sortMatches (walkSearchMatches fs roots query year month company)).length
          + pageSize - 1) / pageSize) := by
  simp only [walkSearch]
  split
  · rename_i h
    rw [List.isEmpty_iff] at h
    rw [walkSearchMatches_empty fs roots query year month company h, sortMatches_nil]
    have hz : ((0 : Nat) + pageSize - 1) / pageSize = 0 := by
      rcases pageSize with _ | k
      · rfl
      · exact Nat.div_eq_of_lt (by omega)
    show 1 = max 1 (((List.nil : List MatchRecord).length + pageSize - 1) / pageSize)
    rw [List.length_nil, hz]
    omega
  · rfl

theorem ceil_mul_ge (len ps : Nat) (hps : 1 ≤ ps) :
    len ≤ max 1 ((len + ps - 1) / ps) * ps := by
  rcases Nat.eq_zero_or_pos ((len + ps - 1) / ps) with hq | hq
  · have hlt : len + ps - 1 < ps := (Nat.div_eq_zero_iff (by omega)).mp hq
    have hlen : len = 0 := by omega
    simp [hlen]
  · rw [Nat.max_eq_right hq]
    have hd := Nat.div_add_mod (len + ps - 1) ps
    have hm : (len + ps - 1) % ps < ps := Nat.mod_lt _ (by omega)
    have h1 : len ≤ ps * ((len + ps - 1) / ps) := by omega
    calc len ≤ ps * ((len + ps - 1) / ps) := h1
    _ = ((len + ps - 1) / ps) * ps := Nat.mul_comm _ _

theorem join_chunks {α : Type} (ps : Nat) (hps : 0 < ps) :
    ∀ (n : Nat) (l : List α), l.length ≤ n * ps →
      ((List.range n).map (fun i => (l.drop (i * ps)).take ps)).flatten = l
  | 0, l, h => by
    have hl : l = [] := List.eq_nil_of_length_eq_zero (by simpa using h)
    simp [hl]
  | n + 1, l, h => by
    rw [List.range_succ_eq_map, List.map_cons, List.map_map, List.flatten_cons]
    have h0 : (l.drop (0 * ps)).take ps = l.take ps := by simp
    rw [h0]
    have hfun : ((fun i => (l.drop (i * ps)).take ps) ∘ Nat.succ)
        = (fun i => ((l.drop ps).drop (i * ps)).take ps) := by
      funext i
      show (l.drop ((i + 1) * ps)).take ps = ((l.drop ps).drop (i * ps)).take ps
      rw [List.drop_drop]
      have hsm : (i + 1) * ps = i * ps + ps := Nat.succ_mul i ps
      rw [hsm, Nat.add_comm (i * ps) ps]
    rw [hfun]
    have hrec := join_chunks ps hps n (l.drop ps) (by
      rw [List.length_drop]
      have hmul : (n + 1) * ps = n * ps + ps := Nat.succ_mul n ps
      omega)
    rw [hrec, List.take_append_drop]

/-- C5: the underlying match list of walk_search is sorted with folders before
files and case-insensitive names ascending within a kind; every page p ≥ 1 is
the contiguous slice starting at (p-1)*page_size; concatenating pages
1..total_pages reproduces the sorted list exactly; total_pages is the ceiling
of count/page_size with a minimum of 1; and a zero count yields one page with
an empty item list. -/
theorem C5_pagination (fs : Dir) (roots : List String) (query : String)
    (year month company : Option String) (page pageSize : Nat)
    (hpage : 1 ≤ page) (hps : 1 ≤ pageSize) :
    List.Pairwise (fun a b : MatchRecord =>
        (a.kind = "folder" ∧ ¬(b.kind = "folder")) ∨
        ((a.kind = "folder" ↔ b.kind = "folder") ∧
          strLower a.file_name ≤ strLower b.file_name))
      (sortMatches (walkSearchMatches fs roots query year month company)) ∧
    (walkSearch fs roots query year month company page pageSize).items
      = ((sortMatches (walkSearchMatches fs roots query year month company)).drop
          ((page - 1) * pageSize)).take pageSize ∧
    ((List.range (walkSearch fs roots query year month company page pageSize).total_pages).map
        (fun i => (walkSearch fs roots query year month company (i + 1) pageSize).items)).flatten
      = sortMatches (walkSearchMatches fs roots query year month company) ∧
    (walkSearch fs roots query year month company page pageSize).count
      = (sortMatches (walkSearchMatches fs roots query year month company)).length ∧
    (walkSearch fs roots query year month company page pageSize).total_pages
      = max 1 (((sortMatches (walkSearchMatches fs roots query year month company)).length
          + pageSize - 1) / pageSize) ∧
    ((walkSearch fs roots query year month company page pageSize).count = 0 →
      (walkSearch fs roots query year month company page pageSize).total_pages = 1 ∧
      (walkSearch fs roots query year month company page pageSize).items = []) := by
  haveI : IsTotal MatchRecord recLe := ⟨recLe_total⟩
  haveI : IsTrans MatchRecord recLe := ⟨recLe_trans⟩
  refine ⟨?_, walkSearch_items fs roots query year month company page pageSize, ?_, ?_, ?_, ?_⟩
  · have hs := List.sorted_insertionSort recLe (walkSearchMatches fs roots query year month company)
    exact List.Pairwise.imp (fun hab => recLe_imp hab) hs
  · have hmap : (List.range
        (walkSearch fs roots query year month company page pageSize).total_pages).map
          (fun i => (walkSearch fs roots query year month company (i + 1) pageSize).items)
        = (List.range
            (walkSearch fs roots query year month company page pageSize).total_pages).map
          (fun i => ((sortMatches
              (walkSearchMatches fs roots query year month company)).drop (i * pageSize)).take
            pageSize) := by
      refine List.map_congr_left (fun i _ => ?_)
      rw [walkSearch_items fs roots query year month company (i + 1) pageSize,
        Nat.add_sub_cancel]
    rw [hmap, walkSearch_total_pages fs roots query year month company page pageSize]
    exact join_chunks pageSize hps _ _
      (ceil_mul_ge (sortMatches (walkSearchMatches fs roots query year month company)).length
        pageSize hps)
  · exact walkSearch_count fs roots query year month company page pageSize
  · exact walkSearch_total_pages fs roots query year month company page pageSize
  · intro hc
    rw [walkSearch_count fs roots query year month company page pageSize] at hc
    have hnil : sortMatches (walkSearchMatches fs roots query year month company) = [] :=
      List.eq_nil_of_length_eq_zero hc
    constructor
    · rw [walkSearch_total_pages fs roots query year month company page pageSize, hnil]
      have hz : ((0 : Nat) + pageSize - 1) / pageSize = 0 := by
        rcases pageSize with _ | k
        · rfl
        · exact Nat.div_eq_of_lt (by omega)
      rw [List.length_nil, hz]
      omega
    · rw [walkSearch_items fs roots query year month company page pageSize, hnil]
      simp

theorem C5_pagination_witness :
    1 ≤ 1 ∧ 1 ≤ 1 ∧
    (List.Pairwise (fun a b : MatchRecord =>
        (a.kind = "folder" ∧ ¬(b.kind = "folder")) ∨
        ((a.kind = "folder" ↔ b.kind = "folder") ∧
          strLower a.file_name ≤ strLower b.file_name))
      (sortMatches (walkSearchMatches fsW ["/data"] "a" none none none)) ∧
    (walkSearch fsW ["/data"] "a" none none none 1 1).items
      = ((sortMatches (walkSearchMatches fsW ["/data"] "a" none none none)).drop
          ((1 - 1) * 1)).take 1 ∧
    ((List.range (walkSearch fsW ["/data"] "a" none none none 1 1).total_pages).map
        (fun i => (walkSearch fsW ["/data"] "a" none none none (i + 1) 1).items)).flatten
      = sortMatches (walkSearchMatches fsW ["/data"] "a" none none none) ∧
    (walkSearch fsW ["/data"] "a" none none none 1 1).count
      = (sortMatches (walkSearchMatches fsW ["/data"] "a" none none none)).length ∧
    (walkSearch fsW ["/data"] "a" none none none 1 1).total_pages
      = max 1 (((sortMatches (walkSearchMatches fsW ["/data"] "a" none none none)).length
          + 1 - 1) / 1) ∧
    ((walkSearch fsW ["/data"] "a" none none none 1 1).count = 0 →
      (walkSearch fsW ["/data"] "a" none none none 1 1).total_pages = 1 ∧
      (walkSearch fsW ["/data"] "a" none none none 1 1).items = [])) :=
  ⟨by decide, by decide,
    C5_pagination fsW ["/data"] "a" none none none 1 1 (by decide) (by decide)⟩

theorem nameLe_total : ∀ a b : MatchRecord, nameLe a b ∨ nameLe b a :=
  fun a b => le_total (strLower a.file_name) (strLower b.file_name)

theorem nameLe_trans : ∀ a b c : MatchRecord, nameLe a b → nameLe b c → nameLe a c :=
  fun _ _ _ hab hbc => le_trans hab hbc

theorem filterMap_dite {α β : Type} (c : α → Prop) [DecidablePred c] (f : α → β) :
    ∀ l : List α, l.filterMap (fun a => if c a then some (f a) else none)
      = (l.filter (fun a => decide (c a))).map f
  | [] => rfl
  | a :: t => by
    by_cases h : c a
    · simp [List.filterMap_cons, List.filter_cons, h, filterMap_dite c f t]
    · simp [List.filterMap_cons, List.filter_cons, h, filterMap_dite c f t]

theorem grpGet_sorted (g : List (String × List MatchRecord)) (p : String) :
    List.Pairwise nameLe (grpGet (g.map (fun e => (e.1, List.insertionSort nameLe e.2))) p) := by
  haveI : IsTotal MatchRecord nameLe := ⟨nameLe_total⟩
  haveI : IsTrans MatchRecord nameLe := ⟨nameLe_trans⟩
  unfold grpGet
  rcases hf : (g.map (fun e => (e.1, List.insertionSort nameLe e.2))).find?
      (fun e => e.1 == p) with _ | e
  · rw [hf]
    simp
  · rw [hf]
    have hme := List.mem_of_find?_eq_some hf
    rw [List.mem_map] at hme
    obtain ⟨x, hx, hxe⟩ := hme
    rw [← hxe]
    exact List.sorted_insertionSort nameLe x.2

theorem avail_entries_ok (g : List (String × List MatchRecord)) (parents : List String) :
    ∀ e ∈ parents.filterMap (fun p =>
        if (grpGet (g.map (fun e => (e.1, List.insertionSort nameLe e.2))) p).length > 0
        then some (AvailEntry.mk p
          (grpGet (g.map (fun e => (e.1, List.insertionSort nameLe e.2))) p).length
          (grpGet (g.map (fun e => (e.1, List.insertionSort nameLe e.2))) p))
        else none),
      0 < e.count ∧ e.count = e.items.length ∧ e.items ≠ [] ∧ List.Pairwise nameLe e.items := by
  intro e he
  rw [List.mem_filterMap] at he
  obtain ⟨p, hp, hfe⟩ := he
  by_cases hl :
      (grpGet (g.map (fun e => (e.1, List.insertionSort nameLe e.2))) p).length > 0
  · rw [if_pos hl] at hfe
    rw [Option.some.injEq] at hfe
    subst hfe
    refine ⟨hl, rfl, ?_, grpGet_sorted g p⟩
    intro hnil
    dsimp only at hnil
    rw [hnil] at hl
    simp at hl
  · rw [if_neg hl] at hfe
    simp at hfe

theorem avail_missing_partition (G : List (String × List MatchRecord)) (parents : List String) :
    (parents.filter (fun p => (grpGet G p).length == 0)
      = parents.filter (fun p => decide (¬ p ∈ (parents.filterMap (fun p =>
          if (grpGet G p).length > 0
          then some (AvailEntry.mk p (grpGet G p).length (grpGet G p)) else none)).map
            AvailEntry.parent))) ∧
    ((parents.filterMap (fun p =>
          if (grpGet G p).length > 0
          then some (AvailEntry.mk p (grpGet G p).length (grpGet G p)) else none)).map
            AvailEntry.parent
      = parents.filter (fun p =>
          decide (¬ p ∈ parents.filter (fun p => (grpGet G p).length == 0)))) := by
  have hA : (parents.filterMap (fun p =>
        if (grpGet G p).length > 0
        then some (AvailEntry.mk p (grpGet G p).length (grpGet G p)) else none)).map
          AvailEntry.parent
      = parents.filter (fun p => decide ((grpGet G p).length > 0)) := by
    rw [filterMap_dite (fun p => (grpGet G p).length > 0)
      (fun p => AvailEntry.mk p (grpGet G p).length (grpGet G p)) parents]
    rw [List.map_map]
    exact List.map_id _ ▸ rfl
  constructor
  · refine List.filter_congr (fun p hp => ?_)
    rw [hA]
    by_cases hz : (grpGet G p).length = 0
    · have hz2 : grpGet G p = [] := List.eq_nil_of_length_eq_zero hz
      simp [List.mem_filter, hz, hz2, hp]
    · have hz2 : ¬(grpGet G p = []) := fun hh => hz (by rw [hh]; rfl)
      simp [List.mem_filter, hz, hz2, hp, Nat.pos_iff_ne_zero]
  · rw [hA]
    refine List.filter_congr (fun p hp => ?_)
    by_cases hz : (grpGet G p).length = 0
    · have hz2 : grpGet G p = [] := List.eq_nil_of_length_eq_zero hz
      simp [List.mem_filter, hz, hz2, hp]
    · have hz2 : ¬(grpGet G p = []) := fun hh => hz (by rw [hh]; rfl)
      simp [List.mem_filter, hz, hz2, hp, Nat.pos_iff_ne_zero]

/-- C4: monthly coverage partitions the categories — the available parents
and the missing parents are complementary filters of parent_order (so they
are disjoint, cover exactly parent_order, and preserve its relative order);
an available entry always holds at least one attributed file, its count is
its item count, and its items are sorted ascending by case-insensitive file
name; an empty effective scope reports every category missing. -/
theorem C4_monthly_partition (fs : Dir) (parents roots : List String)
    (year month company : Option String) (cap : Nat) (hnd : parents.Nodup) :
    ((monthlyCoverage fs parents roots year month company cap).missing
      = parents.filter (fun p => decide (¬ p ∈
          (monthlyCoverage fs parents roots year month company cap).available.map
            AvailEntry.parent))) ∧
    ((monthlyCoverage fs parents roots year month company cap).available.map AvailEntry.parent
      = parents.filter (fun p => decide (¬ p ∈
          (monthlyCoverage fs parents roots year month company cap).missing))) ∧
    (∀ e ∈ (monthlyCoverage fs parents roots year month company cap).available,
      0 < e.count ∧ e.count = e.items.length ∧ e.items ≠ [] ∧
      List.Pairwise (fun a b : MatchRecord =>
        strLower a.file_name ≤ strLower b.file_name) e.items) ∧
    (enumerateEffectiveRoots fs roots year (normMonth month) = [] →
      (monthlyCoverage fs parents roots year month company cap).available = [] ∧
      (monthlyCoverage fs parents roots year month company cap).missing = parents) := by
  simp only [monthlyCoverage]
  split
  · rename_i h
    refine ⟨?_, ?_, ?_, fun _ => ⟨rfl, rfl⟩⟩
    · dsimp only
      symm
      rw [List.filter_eq_self]
      intro p hp
      simp
    · dsimp only
      rw [List.map_nil]
      symm
      rw [List.filter_eq_nil_iff]
      intro p hp
      simp [hp]
    · intro e he
      simp at he
  · rename_i h
    have h4 : ¬(enumerateEffectiveRoots fs roots year (normMonth month) = []) := by
      intro hemp
      rw [← List.isEmpty_iff] at hemp
      exact h hemp
    refine ⟨?_, ?_, ?_, fun hemp => absurd hemp h4⟩
    · dsimp only
      exact (avail_missing_partition _ parents).1
    · dsimp only
      exact (avail_missing_partition _ parents).2
    · dsimp only
      exact avail_entries_ok _ parents

theorem C4_witness :
    (["CIPL"] : List String).Nodup ∧
    (((monthlyCoverage fsW ["CIPL"] ["/data"] none none none 5).missing
      = ["CIPL"].filter (fun p => decide (¬ p ∈
          (monthlyCoverage fsW ["CIPL"] ["/data"] none none none 5).available.map
            AvailEntry.parent))) ∧
    ((monthlyCoverage fsW ["CIPL"] ["/data"] none none none 5).available.map AvailEntry.parent
      = ["CIPL"].filter (fun p => decide (¬ p ∈
          (monthlyCoverage fsW ["CIPL"] ["/data"] none none none 5).missing))) ∧
    (∀ e ∈ (monthlyCoverage fsW ["CIPL"] ["/data"] none none none 5).available,
      0 < e.count ∧ e.count = e.items.length ∧ e.items ≠ [] ∧
      List.Pairwise (fun a b : MatchRecord =>
        strLower a.file_name ≤ strLower b.file_name) e.items) ∧
    (enumerateEffectiveRoots fsW ["/data"] none (normMonth none) = [] →
      (monthlyCoverage fsW ["CIPL"] ["/data"] none none none 5).available = [] ∧
      (monthlyCoverage fsW ["CIPL"] ["/data"] none none none 5).missing = ["CIPL"])) :=
  ⟨by decide, C4_monthly_partition fsW ["CIPL"] ["/data"] none none none 5 (by decide)⟩

theorem mem_fst_any (c : List (String × Nat)) (p : String) (hp : p ∈ c.map Prod.fst) :
    c.any (fun e => e.1 == p) = true := by
  simp only [List.any_eq_true]
  rw [List.mem_map] at hp
  obtain ⟨e, he, hfe⟩ := hp
  exact ⟨e, he, by rw [hfe]; exact beq_self_eq_true p⟩

theorem lookup_map_bump (p q : String) (c : List (String × Nat)) :
    (c.map (fun e => if e.1 == p then (e.1, e.2 + 1) else e)).lookup q
      = if (q == p) = true then (c.lookup q).map (fun n => n + 1) else c.lookup q := by
  induction c with
  | nil =>
    by_cases h : (q == p) = true
    · rw [if_pos h]
      rfl
    · rw [if_neg h]
      rfl
  | cons e t ih =>
    rcases e with ⟨k, v⟩
    rw [List.map_cons]
    by_cases hkp : (k == p) = true
    · rw [if_pos hkp]
      by_cases hqk : (q == k) = true
      · have hqp : (q == p) = true := by
          rw [beq_iff_eq] at hkp hqk ⊢
          rw [hqk, hkp]
        rw [if_pos hqp, List.lookup_cons, List.lookup_cons, hqk]
        rfl
      · have hqk2 : (q == k) = false := by simpa using hqk
        rw [List.lookup_cons, List.lookup_cons, hqk2]
        exact ih
    · rw [if_neg hkp]
      have hkp2 : (k == p) = false := by simpa using hkp
      by_cases hqk : (q == k) = true
      · have hqp : (q == p) = false := by
          rw [beq_iff_eq] at hqk
          rw [beq_eq_false_iff_ne] at hkp2 ⊢
          rw [hqk]
          exact hkp2
        rw [if_neg (show ¬((q == p) = true) by simp [hqp]), List.lookup_cons,
          List.lookup_cons, hqk]
      · have hqk2 : (q == k) = false := by simpa using hqk
        rw [List.lookup_cons, List.lookup_cons, hqk2]
        exact ih

theorem bumpCount_fst (c : List (String × Nat)) (p : String)
    (hp : p ∈ c.map Prod.fst) : (bumpCount c p).map Prod.fst = c.map Prod.fst := by
  unfold bumpCount
  rw [if_pos (mem_fst_any c p hp), List.map_map]
  refine List.map_congr_left (fun e _ => ?_)
  dsimp only [Function.comp]
  by_cases h : (e.1 == p) = true
  · rw [if_pos h]
  · rw [if_neg h]

theorem bumpCount_lookup (c : List (String × Nat)) (p q : String)
    (hp : p ∈ c.map Prod.fst) :
    (bumpCount c p).lookup q
      = if (q == p) = true then (c.lookup q).map (fun n => n + 1) else c.lookup q := by
  unfold bumpCount
  rw [if_pos (mem_fst_any c p hp)]
  exact lookup_map_bump p q c

theorem counts_fold_missing (parents : List String) :
    ∀ (ms : List String), ms.Nodup → (∀ x ∈ ms, x ∈ parents) →
      ∀ (c : List (String × Nat)), c.map Prod.fst = parents →
        ((ms.foldl bumpCount c).map Prod.fst = parents ∧
         ∀ q : String, (ms.foldl bumpCount c).lookup q
            = if ms.contains q then (c.lookup q).map (fun n => n + 1) else c.lookup q)
  | [], _, _, c, hc => ⟨hc, by intro q; rfl⟩
  | x :: t, hnd, hsub, c, hc => by
    simp only [List.foldl_cons]
    have hx : x ∈ c.map Prod.fst := by
      rw [hc]
      exact hsub x (by simp)
    have hfst := bumpCount_fst c x hx
    rw [List.nodup_cons] at hnd
    obtain ⟨ih1, ih2⟩ := counts_fold_missing parents t hnd.2
      (fun y hy => hsub y (by simp [hy])) (bumpCount c x) (by rw [hfst, hc])
    refine ⟨ih1, ?_⟩
    intro q
    rw [ih2 q, bumpCount_lookup c x q hx]
    by_cases hqx : (q == x) = true
    · have hqx2 : q = x := by rwa [beq_iff_eq] at hqx
      have hmt : ¬ x ∈ t := hnd.1
      simp [hqx2, hmt]
    · have hqx2 : (q == x) = false := by simpa using hqx
      have hne : ¬ q = x := beq_eq_false_iff_ne.mp hqx2
      simp [hne]

theorem counts0_fst (parents : List String) :
    (parents.map (fun p => (p, (0 : Nat)))).map Prod.fst = parents := by
  rw [List.map_map]
  refine Eq.trans (List.map_congr_left fun p _ => rfl) ?_
  exact List.map_id parents

theorem lookup_counts0 (q : String) :
    ∀ (parents : List String), q ∈ parents →
      (parents.map (fun p => (p, (0 : Nat)))).lookup q = some 0
  | [], hq => absurd hq (by simp)
  | a :: t, hq => by
    rw [List.map_cons]
    by_cases h : (q == a) = true
    · simp [List.lookup_cons, h]
    · have ht : q ∈ t := by
        rcases List.mem_cons.mp hq with he | ht
        · exfalso
          rw [he] at h
          exact h (beq_self_eq_true a)
        · exact ht
      simp [List.lookup_cons, h, lookup_counts0 q t ht]

theorem multi_fold_invariant (fs : Dir) (parents roots : List String)
    (year m company : Option String) (hnd : parents.Nodup) :
    ∀ (codes : List String) (items0 : List ExpItem) (c0 : List (String × Nat)),
      c0.map Prod.fst = parents →
      (∀ p ∈ parents, c0.lookup p
        = some ((items0.filter (fun it => it.missing.contains p)).length)) →
      ((codes.foldl (multiStep fs parents roots year m company) (items0, c0)).1
          = items0 ++ codes.map (fun exp => ExpItem.mk exp
              (((coverageRows fs parents roots exp year m company 1).filter
                (fun r => !r.found)).map CovRow.parent)
              (((coverageRows fs parents roots exp year m company 1).filter
                (fun r => r.found)).map CovRow.parent))) ∧
      ((codes.foldl (multiStep fs parents roots year m company) (items0, c0)).2.map Prod.fst
          = parents) ∧
      (∀ p ∈ parents,
        (codes.foldl (multiStep fs parents roots year m company) (items0, c0)).2.lookup p
          = some ((((codes.foldl (multiStep fs parents roots year m company)
              (items0, c0)).1).filter (fun it => it.missing.contains p)).length))
  | [], items0, c0, hc0, hl0 => by
    refine ⟨by simp, hc0, ?_⟩
    intro p hp
    exact hl0 p hp
  | exp :: codes, items0, c0, hc0, hl0 => by
    have hmp := coverageRows_map_parent fs parents roots exp year m company 1
    have hmiss_sub : List.Sublist
        (((coverageRows fs parents roots exp year m company 1).filter
          (fun r => !r.found)).map CovRow.parent)
        ((coverageRows fs parents roots exp year m company 1).map CovRow.parent) :=
      List.Sublist.map CovRow.parent (List.filter_sublist _)
    have hmiss_nodup : (((coverageRows fs parents roots exp year m company 1).filter
        (fun r => !r.found)).map CovRow.parent).Nodup :=
      List.Nodup.sublist hmiss_sub (by rw [hmp]; exact hnd)
    have hmiss_mem : ∀ x ∈ ((coverageRows fs parents roots exp year m company 1).filter
        (fun r => !r.found)).map CovRow.parent, x ∈ parents := by
      intro x hx
      rw [← hmp]
      exact List.Sublist.subset hmiss_sub hx
    obtain ⟨hcf, hcl⟩ := counts_fold_missing parents _ hmiss_nodup hmiss_mem c0 hc0
    simp only [List.foldl_cons, multiStep]
    obtain ⟨ih1, ih2, ih3⟩ := multi_fold_invariant fs parents roots year m company hnd codes
      (items0 ++ [ExpItem.mk exp
        (((coverageRows fs parents roots exp year m company 1).filter
          (fun r => !r.found)).map CovRow.parent)
        (((coverageRows fs parents roots exp year m company 1).filter
          (fun r => r.found)).map CovRow.parent)])
      ((((coverageRows fs parents roots exp year m company 1).filter
          (fun r => !r.found)).map CovRow.parent).foldl bumpCount c0)
      hcf
      (by
        intro p hp
        rw [hcl p, List.filter_append, List.length_append]
        by_cases hin : (((coverageRows fs parents roots exp year m company 1).filter
            (fun r => !r.found)).map CovRow.parent).contains p = true
        · rw [hin, hl0 p hp]
          have : (([ExpItem.mk exp
              (((coverageRows fs parents roots exp year m company 1).filter
                (fun r => !r.found)).map CovRow.parent)
              (((coverageRows fs parents roots exp year m company 1).filter
                (fun r => r.found)).map CovRow.parent)] : List ExpItem).filter
              (fun it => it.missing.contains p)).length = 1 := by
            have hpm : p ∈ ((coverageRows fs parents roots exp year m company 1).filter
                (fun r => !r.found)).map CovRow.parent := by simpa using hin
            simp [List.filter_cons, hpm]
          rw [this]
          rfl
        · have hin2 : (((coverageRows fs parents roots exp year m company 1).filter
              (fun r => !r.found)).map CovRow.parent).contains p = false := by
            simpa using hin
          rw [hin2, hl0 p hp]
          have : (([ExpItem.mk exp
              (((coverageRows fs parents roots exp year m company 1).filter
                (fun r => !r.found)).map CovRow.parent)
              (((coverageRows fs parents roots exp year m company 1).filter
                (fun r => r.found)).map CovRow.parent)] : List ExpItem).filter
              (fun it => it.missing.contains p)).length = 0 := by
            have hpm : ¬ p ∈ ((coverageRows fs parents roots exp year m company 1).filter
                (fun r => !r.found)).map CovRow.parent := by simpa using hin
            simp [List.filter_cons, hpm]
          rw [this]
          simp)
    refine ⟨?_, ih2, ?_⟩
    · rw [ih1, List.map_cons, List.append_assoc]
      rfl
    · intro p hp
      exact ih3 p hp

/-- C9: every item of the multi-code report comes from running the coverage
aggregation with that code as the query and an item cap of 1 — its missing
list is exactly the parents of the rows with found = false and its found list
the complement — and missing_counts has exactly the parents as keys, each
value counting the processed codes missing that category. -/
theorem C9_multi_report (fs : Dir) (parents roots codes : List String)
    (year month company : Option String) (limit : Nat) (hnd : parents.Nodup) :
    (∀ it ∈ (multiExpMissing fs parents roots codes year month company limit).items,
      it.missing = ((coverageRows fs parents roots it.exp year (normMonth month) company
          1).filter (fun r => !r.found)).map CovRow.parent ∧
      it.found = ((coverageRows fs parents roots it.exp year (normMonth month) company
          1).filter (fun r => r.found)).map CovRow.parent) ∧
    ((multiExpMissing fs parents roots codes year month company limit).summary.map Prod.fst
      = parents) ∧
    (∀ p ∈ parents,
      (multiExpMissing fs parents roots codes year month company limit).summary.lookup p
        = some (((multiExpMissing fs parents roots codes year month
            company limit).items.filter (fun it => it.missing.contains p)).length)) := by
  simp only [multiExpMissing]
  obtain ⟨h1, h2, h3⟩ := multi_fold_invariant fs parents roots year (normMonth month) company
    hnd _ [] (parents.map (fun p => (p, (0 : Nat)))) (counts0_fst parents)
    (fun p hp => by rw [lookup_counts0 p parents hp]; rfl)
  refine ⟨?_, h2, ?_⟩
  · intro it hit
    rw [h1, List.nil_append, List.mem_map] at hit
    obtain ⟨exp, _, heq⟩ := hit
    rw [← heq]
    exact ⟨rfl, rfl⟩
  · intro p hp
    exact h3 p hp

theorem C9_witness :
    (["CIPL"] : List String).Nodup ∧
    ((∀ it ∈ (multiExpMissing fsW ["CIPL"] [] ["1"] none none none 30).items,
      it.missing = ((coverageRows fsW ["CIPL"] [] it.exp none (normMonth none) none
          1).filter (fun r => !r.found)).map CovRow.parent ∧
      it.found = ((coverageRows fsW ["CIPL"] [] it.exp none (normMonth none) none
          1).filter (fun r => r.found)).map CovRow.parent) ∧
    ((multiExpMissing fsW ["CIPL"] [] ["1"] none none none 30).summary.map Prod.fst
      = ["CIPL"]) ∧
    (∀ p ∈ (["CIPL"] : List String),
      (multiExpMissing fsW ["CIPL"] [] ["1"] none none none 30).summary.lookup p
        = some (((multiExpMissing fsW ["CIPL"] [] ["1"] none none
            none 30).items.filter (fun it => it.missing.contains p)).length))) :=
  ⟨by decide, C9_multi_report fsW ["CIPL"] [] ["1"] none none none 30 (by decide)⟩

theorem digit_not_ws (c : Char) (h : c.isDigit = true) : c.isWhitespace = false := by
  by_contra hw
  have hw2 : c.isWhitespace = true := by simpa using hw
  unfold Char.isWhitespace at hw2
  simp only [Bool.or_eq_true, decide_eq_true_eq] at hw2
  rcases hw2 with ((h1 | h1) | h1) | h1 <;> (subst h1; exact absurd h (by decide))

theorem ws_not_digit (c : Char) (h : c.isWhitespace = true) : c.isDigit = false := by
  by_contra hd
  have hd2 : c.isDigit = true := by simpa using hd
  rw [digit_not_ws c hd2] at h
  exact absurd h (by decide)

theorem digit_not_e (c : Char) (h : c.isDigit = true) :
    (c == 'e') = false ∧ (c == 'E') = false := by
  constructor <;> (rw [beq_eq_false_iff_ne]; intro he; subst he; exact absurd h (by decide))

theorem digit_not_sep (c : Char) (h : c.isDigit = true) : isSepChar c = false := by
  unfold isSepChar
  rw [digit_not_ws c h]
  have hne : (c == '-') = false := by
    rw [beq_eq_false_iff_ne]
    intro he
    subst he
    exact absurd h (by decide)
  rw [hne]
  rfl

theorem eE_not_ws (c : Char) (h : c = 'e' ∨ c = 'E') : c.isWhitespace = false := by
  rcases h with h | h <;> (subst h; decide)

theorem dropWhile_append_of_all {α : Type} (p : α → Bool) :
    ∀ (xs ys : List α), (∀ a ∈ xs, p a = true) →
      (xs ++ ys).dropWhile p = ys.dropWhile p
  | [], ys, _ => rfl
  | x :: xs, ys, h => by
    rw [List.cons_append, List.dropWhile_cons_of_pos (h x (by simp)),
      dropWhile_append_of_all p xs ys (fun a ha => h a (by simp [ha]))]

theorem takeWhile_append_of_all {α : Type} (p : α → Bool) :
    ∀ (xs ys : List α), (∀ a ∈ xs, p a = true) →
      (xs ++ ys).takeWhile p = xs ++ ys.takeWhile p
  | [], ys, _ => rfl
  | x :: xs, ys, h => by
    rw [List.cons_append, List.takeWhile_cons_of_pos (h x (by simp)),
      takeWhile_append_of_all p xs ys (fun a ha => h a (by simp [ha])), List.cons_append]

theorem dropWhile_head_false {α : Type} (p : α → Bool) (h : α) (t : List α)
    (hh : p h = false) : (h :: t).dropWhile p = h :: t :=
  List.dropWhile_cons_of_neg (by simp [hh])

theorem takeWhile_head_false {α : Type} (p : α → Bool) (h : α) (t : List α)
    (hh : p h = false) : (h :: t).takeWhile p = [] :=
  List.takeWhile_cons_of_neg (by simp [hh])

theorem dedupFrom_congr : ∀ (l : List String) (s1 s2 : List String),
    (∀ y, s1.contains y = s2.contains y) → dedupFrom s1 l = dedupFrom s2 l
  | [], _, _, _ => rfl
  | x :: t, s1, s2, h => by
    unfold dedupFrom
    rw [h x]
    by_cases hc : s2.contains x = true
    · rw [if_pos hc, if_pos hc]
      exact dedupFrom_congr t s1 s2 h
    · rw [if_neg hc, if_neg hc]
      rw [dedupFrom_congr t (x :: s1) (x :: s2) (fun y => by
        show (y == x || s1.contains y) = (y == x || s2.contains y)
        rw [h y])]

theorem dedupFrom_cons_mem (s : List String) (x : String) (t : List String)
    (h : s.contains x = true) : dedupFrom s (x :: t) = dedupFrom s t := by
  show (if s.contains x = true then dedupFrom s t else x :: dedupFrom (x :: s) t)
    = dedupFrom s t
  rw [if_pos h]

theorem dedupFrom_cons_not_mem (s : List String) (x : String) (t : List String)
    (h : s.contains x = false) : dedupFrom s (x :: t) = x :: dedupFrom (x :: s) t := by
  show (if s.contains x = true then dedupFrom s t else x :: dedupFrom (x :: s) t)
    = x :: dedupFrom (x :: s) t
  rw [if_neg (show ¬(s.contains x = true) by
    intro hcc
    rw [h] at hcc
    exact absurd hcc (by decide))]

theorem multi_codes_fold :
    ∀ (codes : List String) (n0 inv0 : List String),
      (codes.foldl (fun (acc : List String × List String) raw =>
        match normExpCode raw with
        | none => (acc.1, acc.2 ++ [raw])
        | some n => if acc.1.contains n then acc else (acc.1 ++ [n], acc.2)) (n0, inv0))
      = (n0 ++ dedupFrom n0 (codes.filterMap normExpCode),
         inv0 ++ codes.filter (fun c => (normExpCode c).isNone))
  | [], n0, inv0 => by simp [dedupFrom]
  | raw :: t, n0, inv0 => by
    rw [List.foldl_cons]
    rcases hn : normExpCode raw with _ | n
    · rw [List.filterMap_cons, List.filter_cons, hn]
      simp only [Option.isNone_none, if_true]
      rw [multi_codes_fold t n0 (inv0 ++ [raw])]
      simp
    · rw [List.filterMap_cons, List.filter_cons, hn]
      simp only [Option.isNone_some, Bool.false_eq_true, if_false]
      by_cases hc : n0.contains n = true
      · rw [if_pos hc, multi_codes_fold t n0 inv0, dedupFrom_cons_mem n0 n _ hc]
      · have hc2 : n0.contains n = false := by simpa using hc
        have hcont : ∀ y, (n0 ++ [n]).contains y = ((n :: n0).contains y) := by
          intro y
          rcases hy1 : (n0 ++ [n]).contains y with _ | _ <;>
            rcases hy2 : ((n :: n0).contains y) with _ | _ <;> first | rfl | skip
          · exfalso
            have hm : y ∈ n :: n0 := by simpa using hy2
            have hm2 : y ∈ n0 ++ [n] := by
              rcases List.mem_cons.mp hm with he | hm2
              · exact List.mem_append.mpr (Or.inr (by simp [he]))
              · exact List.mem_append.mpr (Or.inl hm2)
            have hc3 : (n0 ++ [n]).contains y = true := by simpa using hm2
            rw [hy1] at hc3
            exact absurd hc3 (by decide)
          · exfalso
            have hm : y ∈ n0 ++ [n] := by simpa using hy1
            have hm2 : y ∈ n :: n0 := by
              rcases List.mem_append.mp hm with hm2 | he
              · exact List.mem_cons.mpr (Or.inr hm2)
              · rw [List.mem_singleton] at he
                exact List.mem_cons.mpr (Or.inl he)
            have hc3 : ((n :: n0).contains y) = true := by simpa using hm2
            rw [hy2] at hc3
            exact absurd hc3 (by decide)
        rw [if_neg hc, multi_codes_fold t (n0 ++ [n]) inv0,
          dedupFrom_cons_not_mem n0 n _ hc2,
          dedupFrom_congr (t.filterMap normExpCode) (n0 ++ [n]) (n :: n0) hcont,
          List.append_assoc, List.singleton_append]

theorem multi_items_exp (fs : Dir) (parents roots : List String)
    (year m company : Option String) :
    ∀ (codes : List String) (acc : List ExpItem × List (String × Nat)),
      ((codes.foldl (multiStep fs parents roots year m company) acc).1).map ExpItem.exp
        = acc.1.map ExpItem.exp ++ codes
  | [], acc => by simp
  | x :: t, acc => by
    simp only [List.foldl_cons, multiStep]
    rw [multi_items_exp fs parents roots year m company t _]
    simp

theorem expDigitsOf_eq_core (s : String) :
    expDigitsOf s = expCore (s.toList.dropWhile Char.isWhitespace) := rfl

theorem isEmpty_false_of_ne {α : Type} (l : List α) (h : l ≠ []) : l.isEmpty = false := by
  cases l
  · exact absurd rfl h
  · rfl

theorem expDigits_tail (ds w2 : List Char) (hdig : ∀ c ∈ ds, c.isDigit = true)
    (hne : ds ≠ []) (hw2 : ∀ c ∈ w2, c.isWhitespace = true) :
    (ds ++ w2).takeWhile Char.isDigit = ds ∧
    (ds ++ w2).dropWhile Char.isDigit = w2 ∧
    (!((ds ++ w2).takeWhile Char.isDigit).isEmpty) = true ∧
    ((ds ++ w2).dropWhile Char.isDigit).all Char.isWhitespace = true := by
  have htk : (ds ++ w2).takeWhile Char.isDigit = ds := by
    rw [takeWhile_append_of_all Char.isDigit ds w2 hdig]
    rcases w2 with _ | ⟨wh, wt⟩
    · simp
    · rw [takeWhile_head_false Char.isDigit wh wt (ws_not_digit wh (hw2 wh (by simp)))]
      simp
  have hdr : (ds ++ w2).dropWhile Char.isDigit = w2 := by
    rw [dropWhile_append_of_all Char.isDigit ds w2 hdig]
    rcases w2 with _ | ⟨wh, wt⟩
    · rfl
    · exact dropWhile_head_false Char.isDigit wh wt (ws_not_digit wh (hw2 wh (by simp)))
  refine ⟨htk, hdr, ?_, ?_⟩
  · rw [htk]
    rw [isEmpty_false_of_ne ds hne]
    rfl
  · rw [hdr]
    exact List.all_eq_true.mpr hw2

theorem grammar_of_plain (s : String) (ds cs0 : List Char)
    (hsplit : s.toList = s.toList.takeWhile Char.isWhitespace ++ cs0)
    (hds : cs0.takeWhile Char.isDigit = ds)
    (hne : ds.isEmpty = false)
    (hrest : (cs0.dropWhile Char.isDigit).all Char.isWhitespace = true) :
    expGrammar s ("EXP-" ++ String.mk ds) := by
  refine ⟨s.toList.takeWhile Char.isWhitespace, [], ds, cs0.dropWhile Char.isDigit,
    ?_, fun a ha => List.mem_takeWhile_imp ha, List.all_eq_true.mp hrest, ?_, ?_,
    Or.inl rfl, rfl⟩
  · rw [List.append_nil, List.append_assoc, ← hds, List.takeWhile_append_dropWhile]
    exact hsplit
  · intro he
    rw [he] at hne
    exact absurd hne (by decide)
  · intro a ha
    rw [← hds] at ha
    exact List.mem_takeWhile_imp ha

theorem grammar_of_exp (s : String) (ds : List Char) (c1 c2 c3 : Char) (rest : List Char)
    (hsplit : s.toList = s.toList.takeWhile Char.isWhitespace ++ (c1 :: c2 :: c3 :: rest))
    (hg : ((c1 == 'e' || c1 == 'E') && (c2 == 'x' || c2 == 'X') && (c3 == 'p' || c3 == 'P'))
      = true)
    (hds : (rest.dropWhile isSepChar).takeWhile Char.isDigit = ds)
    (hne : ds.isEmpty = false)
    (hrest : ((rest.dropWhile isSepChar).dropWhile Char.isDigit).all Char.isWhitespace = true) :
    expGrammar s ("EXP-" ++ String.mk ds) := by
  simp only [Bool.and_eq_true, Bool.or_eq_true, beq_iff_eq] at hg
  refine ⟨s.toList.takeWhile Char.isWhitespace,
    [c1, c2, c3] ++ rest.takeWhile isSepChar, ds,
    (rest.dropWhile isSepChar).dropWhile Char.isDigit,
    ?_, fun a ha => List.mem_takeWhile_imp ha, List.all_eq_true.mp hrest, ?_, ?_,
    Or.inr ⟨[c1, c2, c3], rest.takeWhile isSepChar, rfl,
      ⟨c1, c2, c3, rfl, hg.1.1, hg.1.2, hg.2⟩,
      fun a ha => List.mem_takeWhile_imp ha⟩, rfl⟩
  · rw [List.append_assoc, List.append_assoc, List.append_assoc, ← hds,
      List.takeWhile_append_dropWhile, List.takeWhile_append_dropWhile]
    simp only [List.cons_append, List.nil_append]
    exact hsplit
  · intro he
    rw [he] at hne
    exact absurd hne (by decide)
  · intro a ha
    rw [← hds] at ha
    exact List.mem_takeWhile_imp ha

theorem expDigitsOf_some_grammar (s : String) (ds : List Char)
    (h : expDigitsOf s = some ds) : expGrammar s ("EXP-" ++ String.mk ds) := by
  have hsplit0 : s.toList
      = s.toList.takeWhile Char.isWhitespace ++ s.toList.dropWhile Char.isWhitespace :=
    (List.takeWhile_append_dropWhile Char.isWhitespace s.toList).symm
  rw [expDigitsOf_eq_core] at h
  rcases hsh : s.toList.dropWhile Char.isWhitespace with _ | ⟨d1, r1⟩
  · rw [hsh] at h
    simp [expCore] at h
  · rcases r1 with _ | ⟨d2, r2⟩
    · rw [hsh] at h
      simp only [expCore] at h
      by_cases hcond : (!([d1].takeWhile Char.isDigit).isEmpty
          && ([d1].dropWhile Char.isDigit).all Char.isWhitespace) = true
      · rw [if_pos hcond] at h
        rw [Option.some.injEq] at h
        rw [Bool.and_eq_true, Bool.not_eq_true'] at hcond
        exact h ▸ grammar_of_plain s _ [d1] (hsh ▸ hsplit0) rfl hcond.1 hcond.2
      · rw [if_neg hcond] at h
        simp at h
    · rcases r2 with _ | ⟨d3, r3⟩
      · rw [hsh] at h
        simp only [expCore] at h
        by_cases hcond : (!([d1, d2].takeWhile Char.isDigit).isEmpty
            && ([d1, d2].dropWhile Char.isDigit).all Char.isWhitespace) = true
        · rw [if_pos hcond] at h
          rw [Option.some.injEq] at h
          rw [Bool.and_eq_true, Bool.not_eq_true'] at hcond
          exact h ▸ grammar_of_plain s _ [d1, d2] (hsh ▸ hsplit0) rfl hcond.1 hcond.2
        · rw [if_neg hcond] at h
          simp at h
      · rw [hsh] at h
        simp only [expCore] at h
        by_cases hg : ((d1 == 'e' || d1 == 'E') && (d2 == 'x' || d2 == 'X')
            && (d3 == 'p' || d3 == 'P')) = true
        · rw [if_pos hg] at h
          by_cases hcond : (!((r3.dropWhile isSepChar).takeWhile Char.isDigit).isEmpty
              && ((r3.dropWhile isSepChar).dropWhile Char.isDigit).all Char.isWhitespace)
              = true
          · rw [if_pos hcond] at h
            rw [Option.some.injEq] at h
            rw [Bool.and_eq_true, Bool.not_eq_true'] at hcond
            exact h ▸ grammar_of_exp s _ d1 d2 d3 r3 (hsh ▸ hsplit0) hg rfl hcond.1 hcond.2
          · rw [if_neg hcond] at h
            simp at h
        · rw [if_neg hg] at h
          by_cases hcond : (!((d1 :: d2 :: d3 :: r3).takeWhile Char.isDigit).isEmpty
              && ((d1 :: d2 :: d3 :: r3).dropWhile Char.isDigit).all Char.isWhitespace)
              = true
          · rw [if_pos hcond] at h
            rw [Option.some.injEq] at h
            rw [Bool.and_eq_true, Bool.not_eq_true'] at hcond
            exact h ▸ grammar_of_plain s _ (d1 :: d2 :: d3 :: r3) (hsh ▸ hsplit0) rfl
              hcond.1 hcond.2
          · rw [if_neg hcond] at h
            simp at h

theorem grammar_expDigitsOf (s : String) (code : String) (hg : expGrammar s code) :
    ∃ ds : List Char, expDigitsOf s = some ds ∧ code = "EXP-" ++ String.mk ds := by
  obtain ⟨w1, pre, ds, w2, hsplit, hw1, hw2, hne, hdig, hpre, hcode⟩ := hg
  refine ⟨ds, ?_, hcode⟩
  obtain ⟨d, dt, hdshape⟩ : ∃ d dt, ds = d :: dt := by
    rcases ds with _ | ⟨d, dt⟩
    · exact absurd rfl hne
    · exact ⟨d, dt, rfl⟩
  have hddig : d.isDigit = true := hdig d (by rw [hdshape]; simp)
  obtain ⟨htail1, htail2, htail3, htail4⟩ := expDigits_tail ds w2 hdig hne hw2
  rw [expDigitsOf_eq_core, hsplit]
  rcases hpre with hpre | ⟨e, sep, hpe, hel, hsep⟩
  · subst hpre
    rw [List.append_nil, List.append_assoc]
    have hdw : (w1 ++ (ds ++ w2)).dropWhile Char.isWhitespace = ds ++ w2 := by
      rw [dropWhile_append_of_all Char.isWhitespace w1 (ds ++ w2) hw1, hdshape,
        List.cons_append]
      exact dropWhile_head_false Char.isWhitespace d (dt ++ w2) (digit_not_ws d hddig)
    rw [hdw]
    have hde := digit_not_e d hddig
    rcases hsh2 : dt ++ w2 with _ | ⟨x2, r2⟩
    · rw [hdshape, List.cons_append, hsh2]
      rw [hdshape, List.cons_append, hsh2] at htail1 htail3 htail4
      simp only [expCore]
      rw [if_pos (by rw [Bool.and_eq_true]; exact ⟨htail3, htail4⟩)]
      rw [htail1]
    · rcases r2 with _ | ⟨x3, r3⟩
      · rw [hdshape, List.cons_append, hsh2]
        rw [hdshape, List.cons_append, hsh2] at htail1 htail3 htail4
        simp only [expCore]
        rw [if_pos (by rw [Bool.and_eq_true]; exact ⟨htail3, htail4⟩)]
        rw [htail1]
      · rw [hdshape, List.cons_append, hsh2]
        rw [hdshape, List.cons_append, hsh2] at htail1 htail3 htail4
        simp only [expCore]
        rw [if_neg (show ¬(((d == 'e' || d == 'E') && (x2 == 'x' || x2 == 'X')
            && (x3 == 'p' || x3 == 'P')) = true) by
          rw [hde.1, hde.2]
          simp)]
        rw [if_pos (by rw [Bool.and_eq_true]; exact ⟨htail3, htail4⟩)]
        rw [htail1]
  · obtain ⟨c1, c2, c3, he, h1, h2, h3⟩ := hel
    subst hpe
    subst he
    have hc1 : c1.isWhitespace = false := eE_not_ws c1 h1
    simp only [List.append_assoc, List.cons_append, List.nil_append]
    have hdw : (w1 ++ (c1 :: c2 :: c3 :: (sep ++ (ds ++ w2)))).dropWhile Char.isWhitespace
        = c1 :: c2 :: c3 :: (sep ++ (ds ++ w2)) := by
      rw [dropWhile_append_of_all Char.isWhitespace w1 _ hw1]
      exact dropWhile_head_false Char.isWhitespace c1 _ hc1
    rw [hdw]
    simp only [expCore]
    rw [if_pos (show ((c1 == 'e' || c1 == 'E') && (c2 == 'x' || c2 == 'X')
        && (c3 == 'p' || c3 == 'P')) = true by
      rw [Bool.and_eq_true, Bool.and_eq_true, Bool.or_eq_true, Bool.or_eq_true,
        Bool.or_eq_true]
      refine ⟨⟨?_, ?_⟩, ?_⟩
      · rcases h1 with h | h <;> (subst h; simp)
      · rcases h2 with h | h <;> (subst h; simp)
      · rcases h3 with h | h <;> (subst h; simp))]
    have hds2 : (sep ++ (ds ++ w2)).dropWhile isSepChar = ds ++ w2 := by
      rw [dropWhile_append_of_all isSepChar sep (ds ++ w2) hsep, hdshape, List.cons_append]
      exact dropWhile_head_false isSepChar d (dt ++ w2) (digit_not_sep d hddig)
    rw [hds2]
    rw [if_pos (by rw [Bool.and_eq_true]; exact ⟨htail3, htail4⟩)]
    rw [htail1]

/-- The regex match of _norm_exp_code, characterized: a code is produced
exactly for inputs of the amended grammar, and it is always EXP-(digits). -/
theorem normExpCode_iff_grammar (s : String) (c : String) :
    normExpCode s = some c ↔ expGrammar s c := by
  constructor
  · intro h
    unfold normExpCode at h
    by_cases hs : (s == "") = true
    · rw [if_pos hs] at h
      simp at h
    · rw [if_neg hs] at h
      rcases hd : expDigitsOf s with _ | ds
      · rw [hd] at h
        simp at h
      · rw [hd] at h
        have hc : ("EXP-" ++ String.mk ds) = c := by simpa using h
        rw [← hc]
        exact expDigitsOf_some_grammar s ds hd
  · intro hg
    obtain ⟨ds, hED, hcode⟩ := grammar_expDigitsOf s c hg
    have hlist : s.toList ≠ [] := by
      obtain ⟨w1, pre, ds2, w2, hsplit, _, _, hne2, _, _, _⟩ := hg
      rw [hsplit]
      intro hh
      rcases List.append_eq_nil.mp hh with ⟨h2, _⟩
      rcases List.append_eq_nil.mp h2 with ⟨_, h3⟩
      exact hne2 h3
    have hs : (s == "") = false := by
      rw [beq_eq_false_iff_ne]
      intro he
      rw [he] at hlist
      exact hlist rfl
    unfold normExpCode
    rw [if_neg (show ¬((s == "") = true) by
      rw [hs]
      decide)]
    rw [hED, hcode]
    rfl

/-- C8 counterexample: the strict reading of the claimed grammar (optional
EXP, at most one space or dash, digits, nothing else) rejects the input
exp--192, yet _norm_exp_code canonicalizes it to EXP-192 (the regex accepts
any run of dash/space separators, plus surrounding whitespace), so
multi_exp_missing processes it as a valid code; and with limit = 0 the cap
is the fallback 30, not 0, so the one item survives a claimed limit of 0. -/
theorem C8_counterexample :
    strictParses "exp--192" = false ∧
    normExpCode "exp--192" = some "EXP-192" ∧
    (multiExpMissing fsW ["CIPL"] [] ["exp--192"] none none none 0).items.map ExpItem.exp
      = ["EXP-192"] ∧
    (multiExpMissing fsW ["CIPL"] [] ["exp--192"] none none none 0).limit = 30 ∧
    strictParses " 192 " = false ∧
    normExpCode " 192 " = some "EXP-192" := by
  decide

/-- C8 (amended): a raw code parses iff it is optional whitespace, an
optional case-insensitive EXP prefix followed by any run (possibly empty)
of space/dash separators, then one or more digits and optional trailing
whitespace, in which case it canonicalizes to EXP-(digits); unparseable
inputs are collected verbatim in invalid and excluded from processing;
canonical duplicates are dropped keeping first-seen order; the deduplicated
list is truncated to at most (limit if limit is nonzero else 30) entries,
silently; the reported limit field is that effective cap; and 192, EXP-192,
exp192, Exp 192 all become EXP-192 while abc is invalid. -/
theorem C8_exp_normalization (fs : Dir) (parents roots codes : List String)
    (year month company : Option String) (limit : Nat) :
    (∀ s c, normExpCode s = some c ↔ expGrammar s c) ∧
    (multiExpMissing fs parents roots codes year month company limit).invalid
      = codes.filter (fun c => (normExpCode c).isNone) ∧
    (multiExpMissing fs parents roots codes year month company limit).items.map ExpItem.exp
      = (dedupKeepFirst (codes.filterMap normExpCode)).take
          (if limit == 0 then 30 else limit) ∧
    (multiExpMissing fs parents roots codes year month company limit).limit
      = (if limit == 0 then 30 else limit) ∧
    normExpCode "192" = some "EXP-192" ∧ normExpCode "EXP-192" = some "EXP-192" ∧
    normExpCode "exp192" = some "EXP-192" ∧ normExpCode "Exp 192" = some "EXP-192" ∧
    normExpCode "abc" = none := by
  refine ⟨normExpCode_iff_grammar, ?_, ?_, rfl,
    by decide, by decide, by decide, by decide, by decide⟩
  · simp only [multiExpMissing]
    rw [multi_codes_fold codes [] []]
    simp
  · simp only [multiExpMissing]
    rw [multi_codes_fold codes [] []]
    rw [multi_items_exp fs parents roots year (normMonth month) company]
    simp only [List.map_nil, List.nil_append, List.length_nil]
    unfold dedupKeepFirst
    by_cases hl : (dedupFrom [] (codes.filterMap normExpCode)).length
        > (if limit == 0 then 30 else limit)
    · rw [if_pos hl]
    · rw [if_neg hl, List.take_of_length_le (Nat.not_lt.mp hl)]

end SmartDoc
